import Mathlib

/-!
# Verification of the jsonquery node-tree builder

Shallow embedding of `node.go` from the `jsonquery` package.  The Go code
builds a doubly linked tree of `Node` values (pointer fields `Parent`,
`PrevSibling`, `NextSibling`, `FirstChild`, `LastChild`) from a decoded JSON
value.  We model the Go heap as a list of node records (`List Node`); a Go
pointer `*Node` becomes `Option Nat`, an index into that list (`none` = nil).
Allocation (`&Node{...}`) appends a record at the end of the list; a field
assignment through a pointer becomes `setN`.  This is the standard
arena-index model of a pointer-linked structure and preserves the source
code's behaviour statement by statement.

JSON values are modelled by the inductive `JValue`, mirroring the result of
Go's `encoding/json` unmarshalling into `interface{}`: `nil`, `bool`,
`float64`, `string`, `[]interface{}` and `map[string]interface{}`.  A Go map
is modelled as an association list with (by construction of a Go map)
pairwise distinct keys; number values carry the decimal string that
`strconv.FormatFloat(v, 'f', -1, 64)` produces for the decoded `float64`,
because the float-to-string conversion happens in the external `strconv`
library at the decoder boundary.
-/

set_option maxHeartbeats 1000000

namespace Jsonquery

/-- `NodeType` from `node.go`: `DocumentNode`, `ElementNode`, `TextNode`. -/
inductive NodeType where
  | documentNode
  | elementNode
  | textNode
  deriving Repr, DecidableEq

/-- The `Node` struct from `node.go`.  Pointer fields are heap indices.
`level` is the unexported construction-time depth field.  The zero value of
the Go struct (all pointers nil, `Type` = `DocumentNode`, empty `Data`,
`level` 0) is the default. -/
structure Node where
  parent : Option Nat := none
  prevSibling : Option Nat := none
  nextSibling : Option Nat := none
  firstChild : Option Nat := none
  lastChild : Option Nat := none
  type : NodeType := .documentNode
  data : String := ""
  level : Nat := 0
  deriving Repr, DecidableEq

instance : Inhabited Node := ⟨{}⟩

/-- Dereference a heap index (out-of-range reads give the zero value; they
never happen on the heaps the builder produces). -/
def getN (a : List Node) (i : Nat) : Node := (a[i]?).getD default

/-- Assign through a heap index (out-of-range writes are dropped; they never
happen on the heaps the builder produces). -/
def setN (a : List Node) (i : Nat) (n : Node) : List Node := a.set i n

/-- A decoded JSON value, the `interface{}` result of `encoding/json`.
`num` carries the decimal rendering `strconv.FormatFloat(v, 'f', -1, 64)` of
the decoded `float64`, produced at the external decoder/formatter boundary.
`obj` is a Go `map[string]interface{}`: an association list whose keys are
pairwise distinct. -/
inductive JValue where
  | null
  | bool (b : Bool)
  | num (s : String)
  | str (s : String)
  | arr (elems : List JValue)
  | obj (members : List (String × JValue))

/-- Lexicographic (code-point, equivalently UTF-8 byte-wise) strict
comparison of character lists; structural so that it evaluates. -/
def lexLt : List Char → List Char → Bool
  | [], [] => false
  | [], _ :: _ => true
  | _ :: _, [] => false
  | a :: as, b :: bs => if a < b then true else if b < a then false else lexLt as bs

/-- Go's `s1 <= s2` on strings: byte-wise lexicographic comparison of the
UTF-8 bytes, which coincides with code-point lexicographic order. -/
def strLe (a b : String) : Bool := !(lexLt b.toList a.toList)

/-- The ordering `sort.Strings` establishes on the key-value pairs of an
object: compare the key strings. -/
def pairLe (p q : String × JValue) : Prop := strLe p.1 q.1 = true

instance : DecidableRel pairLe := fun p q =>
  inferInstanceAs (Decidable (strLe p.1 q.1 = true))

/-- `sort.Strings(keys)` followed by iterating `v[key]` over the sorted
keys, modelled as sorting the association list by key.  The keys of a Go map
are pairwise distinct, so any ascending sort yields the same traversal as
the source's sort-then-lookup. -/
def sortPairs (ps : List (String × JValue)) : List (String × JValue) :=
  ps.insertionSort pairLe

theorem sortPairs_perm (ps : List (String × JValue)) : (sortPairs ps).Perm ps :=
  List.perm_insertionSort pairLe ps

theorem sizeOf_sortPairs (ps : List (String × JValue)) :
    sizeOf (sortPairs ps) = sizeOf ps :=
  (sortPairs_perm ps).sizeOf_eq_sizeOf

/-- The `addNode` closure inside `parseValue` (node.go lines 147-167),
transcribed assignment by assignment.  `top` and `n` are the heap indices of
the captured `top` pointer and of the node being linked.

The final `none` branch is unreachable: whenever `FirstChild != nil` the
builder also has `LastChild != nil` (the two are always set together), and
on that state the Go code would dereference nil. -/
def addNode (a : List Node) (top n : Nat) : List Node :=
  if (getN a n).level = (getN a top).level then
    let a := setN a top { getN a top with nextSibling := some n }
    let a := setN a n { getN a n with prevSibling := some top }
    let a := setN a n { getN a n with parent := (getN a top).parent }
    match (getN a top).parent with
    | some p => setN a p { getN a p with lastChild := some n }
    | none => a
  else if (getN a top).level < (getN a n).level then
    let a := setN a n { getN a n with parent := some top }
    if (getN a top).firstChild = none then
      let a := setN a top { getN a top with firstChild := some n }
      setN a top { getN a top with lastChild := some n }
    else
      match (getN a top).lastChild with
      | some t =>
        let a := setN a t { getN a t with nextSibling := some n }
        let a := setN a n { getN a n with prevSibling := some t }
        setN a top { getN a top with lastChild := some n }
      | none => a
  else a

mutual

/-- `parseValue` (node.go lines 146-200).  The `[]interface{}` and
`map[string]interface{}` loop bodies are split into `parseArr`/`parseObj`
so the recursion is over the list structure.  The `default` branch of the
Go type switch (reached exactly for JSON `null`) creates no node. -/
def parseValue (x : JValue) (a : List Node) (top level : Nat) : List Node :=
  match x with
  | .arr vs => parseArr vs a top level
  | .obj kvs => parseObj (sortPairs kvs) a top level
  | .str s =>
      let n := a.length
      let a := a ++ [{ type := .textNode, data := s, level := level }]
      addNode a top n
  | .num s =>
      let n := a.length
      let a := a ++ [{ type := .textNode, data := s, level := level }]
      addNode a top n
  | .bool b =>
      let n := a.length
      let a := a ++ [{ type := .textNode,
                       data := if b then "true" else "false", level := level }]
      addNode a top n
  | .null => a
termination_by sizeOf x
decreasing_by all_goals (simp_wf; try rw [sizeOf_sortPairs]); all_goals omega

/-- The `case []interface{}` loop of `parseValue`: one anonymous
`ElementNode` per array element, in source order, recursing into the
element's value. -/
def parseArr (vs : List JValue) (a : List Node) (top level : Nat) : List Node :=
  match vs with
  | [] => a
  | v :: rest =>
      let n := a.length
      let a := a ++ [{ type := .elementNode, data := "", level := level }]
      let a := addNode a top n
      let a := parseValue v a n (level + 1)
      parseArr rest a top level
termination_by sizeOf vs
decreasing_by all_goals simp_wf; all_goals omega

/-- The `case map[string]interface{}` loop of `parseValue`, applied to the
key-sorted association list: one `ElementNode` named after each key, in
ascending key order, recursing into the key's value. -/
def parseObj (ps : List (String × JValue)) (a : List Node) (top level : Nat) :
    List Node :=
  match ps with
  | [] => a
  | (k, v) :: rest =>
      let n := a.length
      let a := a ++ [{ type := .elementNode, data := k, level := level }]
      let a := addNode a top n
      let a := parseValue v a n (level + 1)
      parseObj rest a top level
termination_by sizeOf ps
decreasing_by all_goals simp_wf; all_goals omega

end

/-- The zero-value `&Node{Type: DocumentNode}` allocated by `parse`. -/
def docNode : Node := {}

/-- `parse` (node.go lines 202-210) after a successful
`json.Unmarshal`: allocate the document root and walk the value at level 1.
The result heap has the root at index 0. -/
def parse (v : JValue) : List Node := parseValue v [docNode] 0 1

/-- `parse` including the `json.Unmarshal` boundary: the external decoder
is a parameter, its failure aborts with no tree. -/
def parseBytes (decode : List UInt8 → Except String JValue) (b : List UInt8) :
    Except String (List Node) :=
  match decode b with
  | .error e => .error e
  | .ok v => .ok (parse v)

/-- `Parse` (node.go lines 213-219): `ioutil.ReadAll` on the reader is
modelled by its outcome `r` (bytes or a read error); a read error is
returned as is, otherwise the bytes are parsed. -/
def Parse (decode : List UInt8 → Except String JValue)
    (r : Except String (List UInt8)) : Except String (List Node) :=
  match r with
  | .error e => .error e
  | .ok b => parseBytes decode b

/-- The sibling walk `for nn := n.FirstChild; nn != nil; nn = nn.NextSibling`
shared by `ChildNodes`, fuelled by the heap size: a nil-terminated acyclic
chain in a heap of `k` records has at most `k` links, so on every heap the
builder produces the fuel never runs out and the walk agrees with Go's. -/
def childChain (a : List Node) : Nat → Option Nat → List Nat
  | _, none => []
  | 0, some _ => []
  | fuel + 1, some i => i :: childChain a fuel (getN a i).nextSibling

/-- `ChildNodes` (node.go lines 40-46). -/
def ChildNodes (a : List Node) (i : Nat) : List Nat :=
  childChain a a.length (getN a i).firstChild

mutual

/-- The recursive `output` closure of `InnerText` (node.go lines 50-59)
applied to one node: a `TextNode` contributes its `Data`, any other node
the concatenation over its children.  Fuelled; on the builder's heaps the
recursion depth is bounded by twice the heap size, so the fuel used by
`InnerText` never runs out. -/
def innerTextNode (a : List Node) : Nat → Nat → String
  | 0, _ => ""
  | fuel + 1, i =>
      if (getN a i).type = .textNode then (getN a i).data
      else innerTextChain a fuel (getN a i).firstChild

/-- The `for child := n.FirstChild; ...` loop inside `output`. -/
def innerTextChain (a : List Node) : Nat → Option Nat → String
  | _, none => ""
  | 0, some _ => ""
  | fuel + 1, some i =>
      innerTextNode a fuel i ++ innerTextChain a fuel (getN a i).nextSibling

end

/-- `InnerText` (node.go lines 49-63). -/
def InnerText (a : List Node) (i : Nat) : String :=
  innerTextNode a (2 * a.length + 1) i

mutual

/-- The recursive `outputXML` helper (node.go lines 65-86): an
`ElementNode` writes its open tag (`<element>` when anonymous), a
`TextNode` writes its raw data and returns, anything else writes nothing;
then the children are rendered and a close tag chosen by `n.Data` is
written.  Fuelled like `innerTextNode`. -/
def outputXMLNode (a : List Node) : Nat → Nat → String
  | 0, _ => ""
  | fuel + 1, i =>
      let n := getN a i
      if n.type = .textNode then n.data
      else
        (if n.type = .elementNode then
          (if n.data = "" then "<element>" else "<" ++ n.data ++ ">")
         else "")
        ++ outputXMLChain a fuel n.firstChild
        ++ (if n.data = "" then "</element>" else "</" ++ n.data ++ ">")

/-- The child loop inside `outputXML` and `OutputXML`. -/
def outputXMLChain (a : List Node) : Nat → Option Nat → String
  | _, none => ""
  | 0, some _ => ""
  | fuel + 1, some i =>
      outputXMLNode a fuel i ++ outputXMLChain a fuel (getN a i).nextSibling

end

/-- `OutputXML` (node.go lines 89-96): the fixed XML declaration, then the
rendering of the node's children. -/
def OutputXML (a : List Node) (i : Nat) : String :=
  "<?xml version=\"1.0\"?>" ++ outputXMLChain a (2 * a.length + 1) (getN a i).firstChild

end Jsonquery

namespace Jsonquery

/-- Abstract rose tree describing one node of the built structure: its
`NodeType`, its `Data`, and the trees of its children in sibling order. -/
inductive Tree where
  | mk (ty : NodeType) (dat : String) (children : List Tree)

/-- The type of a tree's root node. -/
def Tree.rootType : Tree → NodeType
  | .mk ty _ _ => ty

/-- The data of a tree's root node. -/
def Tree.rootData : Tree → String
  | .mk _ dat _ => dat

/-- The children of a tree's root node. -/
def Tree.childForest : Tree → List Tree
  | .mk _ _ cs => cs

mutual

/-- Number of heap records a tree occupies. -/
def tsize : Tree → Nat
  | .mk _ _ cs => 1 + fsize cs

/-- Number of heap records a forest occupies. -/
def fsize : List Tree → Nat
  | [] => 0
  | t :: ts => tsize t + fsize ts

end

/-- Forest induction: to prove a property of every forest it suffices to
prove it for `[]` and, for the cons of any tree, assuming it for the tree's
children and for the tail. -/
theorem forestInd (P : List Tree → Prop) (hnil : P [])
    (hcons : ∀ ty dat cs ts, P cs → P ts → P (Tree.mk ty dat cs :: ts)) :
    ∀ F, P F
  | [] => hnil
  | .mk ty dat cs :: ts =>
      hcons ty dat cs ts (forestInd P hnil hcons cs) (forestInd P hnil hcons ts)
termination_by F => sizeOf F
decreasing_by all_goals simp_wf; all_goals omega

mutual

/-- The forest of nodes the builder emits for a JSON value: nothing for
`null`, a single text leaf for a scalar, one anonymous element per array
item, one element named after each key (in ascending key order) per object
member. -/
def toForest : JValue → List Tree
  | .null => []
  | .bool b => [.mk .textNode (if b then "true" else "false") []]
  | .num s => [.mk .textNode s []]
  | .str s => [.mk .textNode s []]
  | .arr vs => arrForest vs
  | .obj kvs => objForest (sortPairs kvs)
termination_by x => sizeOf x
decreasing_by all_goals (simp_wf; try rw [sizeOf_sortPairs]); all_goals omega

/-- Trees of the elements of a JSON array, in source order. -/
def arrForest : List JValue → List Tree
  | [] => []
  | v :: vs => .mk .elementNode "" (toForest v) :: arrForest vs
termination_by vs => sizeOf vs
decreasing_by all_goals simp_wf; all_goals omega

/-- Trees of the members of a JSON object, in the given (sorted) order. -/
def objForest : List (String × JValue) → List Tree
  | [] => []
  | (k, v) :: ps => .mk .elementNode k (toForest v) :: objForest ps
termination_by ps => sizeOf ps
decreasing_by all_goals simp_wf; all_goals omega

end

/-- Heap index of the root of the last tree of a forest laid out from
`base`, or `none` for the empty forest. -/
def lastIdx : List Tree → Nat → Option Nat
  | [], _ => none
  | [_], b => some b
  | t :: ts, b => lastIdx ts (b + tsize t)

/-- Heap indices of the roots of a forest laid out from `base`. -/
def rootIdxs : List Tree → Nat → List Nat
  | [], _ => []
  | t :: ts, b => b :: rootIdxs ts (b + tsize t)

/-- All (heap index, subtree) pairs of a forest laid out from `base`, in
depth-first preorder. -/
def forestIdx : List Tree → Nat → List (Nat × Tree)
  | [], _ => []
  | .mk ty dat cs :: ts, base =>
      (base, .mk ty dat cs) ::
        (forestIdx cs (base + 1) ++ forestIdx ts (base + 1 + fsize cs))
termination_by F _ => sizeOf F
decreasing_by all_goals simp_wf; all_goals omega

/-- The heap records of a forest laid out in depth-first preorder starting
at index `base`: the roots form a sibling chain under parent index `parent`
at depth `level`, the root of the first tree having `prevSibling = prev`,
and each root is followed by the records of its children. -/
def encodeForest : List Tree → Nat → Nat → Nat → Option Nat → List Node
  | [], _, _, _, _ => []
  | .mk ty dat cs :: rest, base, parent, level, prev =>
      { type := ty, data := dat, level := level, parent := some parent,
        prevSibling := prev,
        nextSibling := if rest.isEmpty then none else some (base + 1 + fsize cs),
        firstChild := if cs.isEmpty then none else some (base + 1),
        lastChild := lastIdx cs (base + 1) } ::
      (encodeForest cs (base + 1) base (level + 1) none ++
       encodeForest rest (base + 1 + fsize cs) parent level (some base))
termination_by F _ _ _ _ => sizeOf F
decreasing_by all_goals simp_wf; all_goals omega

mutual

/-- Concatenation, in depth-first preorder, of the data of every text node
of a tree (the spec's reading of `InnerText`). -/
def treeText : Tree → String
  | .mk ty dat cs => (if ty = .textNode then dat else "") ++ forestText cs

/-- Concatenation of `treeText` over a forest. -/
def forestText : List Tree → String
  | [] => ""
  | t :: ts => treeText t ++ forestText ts

end

mutual

/-- The spec's reading of the markup rendering of one tree: a text node is
its raw data, an element is one open/close tag pair (`<element>` when the
name is empty) around its rendered children.  Document-typed trees never
occur in a built forest; for them we just render the children. -/
def renderTree : Tree → String
  | .mk ty dat cs =>
      match ty with
      | .textNode => dat
      | .elementNode =>
          (if dat = "" then "<element>" else "<" ++ dat ++ ">") ++
          renderForest cs ++
          (if dat = "" then "</element>" else "</" ++ dat ++ ">")
      | .documentNode => renderForest cs

/-- Concatenation of `renderTree` over a forest. -/
def renderForest : List Tree → String
  | [] => ""
  | t :: ts => renderTree t ++ renderForest ts

end

mutual

/-- Modelled from the spec: the canonical text rendering of a JSON value —
a scalar renders as its canonical string (`true`/`false`, the decimal
number string, the raw string), `null` renders as nothing, an array as the
concatenation of its elements' renderings in order, an object as the
concatenation of its members' renderings in ascending key order. -/
def canonicalText : JValue → String
  | .null => ""
  | .bool b => if b then "true" else "false"
  | .num s => s
  | .str s => s
  | .arr vs => arrText vs
  | .obj kvs => objText (sortPairs kvs)
termination_by x => sizeOf x
decreasing_by all_goals (simp_wf; try rw [sizeOf_sortPairs]); all_goals omega

/-- Concatenated canonical texts of array elements. -/
def arrText : List JValue → String
  | [] => ""
  | v :: vs => canonicalText v ++ arrText vs
termination_by vs => sizeOf vs
decreasing_by all_goals simp_wf; all_goals omega

/-- Concatenated canonical texts of object member values. -/
def objText : List (String × JValue) → String
  | [] => ""
  | (_, v) :: ps => canonicalText v ++ objText ps
termination_by ps => sizeOf ps
decreasing_by all_goals simp_wf; all_goals omega

end

mutual

/-- Well-formedness of a built tree: every node is an element or a text
node, and text nodes are leaves. -/
def TreeWF : Tree → Prop
  | .mk ty _ cs =>
      (ty = .elementNode ∨ ty = .textNode) ∧ (ty = .textNode → cs = []) ∧ ForestWF cs

/-- Well-formedness of every tree of a forest. -/
def ForestWF : List Tree → Prop
  | [] => True
  | t :: ts => TreeWF t ∧ ForestWF ts

end

/-- Closed-form description of one `parseValue` call on heap `a` with
insertion point `top`: the forest `ts` is laid out at the end of the heap,
the old last child of `top` (if any) gets the first new root as its next
sibling, and `top`'s child span is extended to cover the new roots. -/
def attach (a : List Node) (top : Nat) (ts : List Tree) (level : Nat) : List Node :=
  match ts with
  | [] => a
  | _ :: _ =>
      let base := a.length
      let old := getN a top
      let a1 := match old.lastChild with
        | some t => setN a t { getN a t with nextSibling := some base }
        | none => a
      let a2 := setN a1 top { getN a1 top with
          firstChild := some (old.firstChild.getD base),
          lastChild := lastIdx ts base }
      a2 ++ encodeForest ts base top level old.lastChild

/-- Invariant of the builder's insertion point: `top` is a valid index, new
nodes are created strictly below it, its first/last-child fields are `nil`
together, and its last child (when present) is a valid index other than
`top` itself. -/
def Inv (a : List Node) (top level : Nat) : Prop :=
  top < a.length ∧ (getN a top).level < level ∧
    ((getN a top).firstChild = none ↔ (getN a top).lastChild = none) ∧
    (∀ t, (getN a top).lastChild = some t → t < a.length ∧ t ≠ top)

/-! ## Heap access lemmas -/

@[simp] theorem length_setN (a : List Node) (i : Nat) (n : Node) :
    (setN a i n).length = a.length := List.length_set a i n

theorem getN_setN_self {a : List Node} {i : Nat} (h : i < a.length) (n : Node) :
    getN (setN a i n) i = n := by
  simp [getN, setN, List.getElem?_set, h]

theorem getN_setN_ne {i j : Nat} (h : i ≠ j) (a : List Node) (n : Node) :
    getN (setN a i n) j = getN a j := by
  simp [getN, setN, List.getElem?_set, h]

theorem getN_append_left {j : Nat} {a : List Node} (h : j < a.length)
    (b : List Node) : getN (a ++ b) j = getN a j := by
  simp [getN, List.getElem?_append, h]

theorem getN_append_right (a b : List Node) (j : Nat) :
    getN (a ++ b) (a.length + j) = getN b j := by
  simp [getN, List.getElem?_append]

theorem getN_append_len (a : List Node) (n : Node) (b : List Node) :
    getN (a ++ n :: b) a.length = n := by
  have := getN_append_right a (n :: b) 0
  simpa [getN] using this

theorem setN_append_left {i : Nat} {a : List Node} (h : i < a.length)
    (b : List Node) (n : Node) : setN (a ++ b) i n = setN a i n ++ b := by
  simp [setN, List.set_append, h]

theorem setN_append_right {i : Nat} {a : List Node} (h : a.length ≤ i)
    (b : List Node) (n : Node) :
    setN (a ++ b) i n = a ++ setN b (i - a.length) n := by
  simp [setN, List.set_append, Nat.not_lt.mpr h]

theorem getN_oob {a : List Node} {i : Nat} (h : a.length ≤ i) :
    getN a i = default := by
  simp [getN, List.getElem?_eq_none h]

/-! ## Sizes of encoded forests -/

theorem tsize_pos (t : Tree) : 0 < tsize t := by
  cases t with | mk ty dat cs => simp only [tsize]; omega

theorem length_encodeForest (F : List Tree) :
    ∀ base parent level prev,
      (encodeForest F base parent level prev).length = fsize F := by
  induction F using forestInd with
  | hnil => intro base parent level prev; simp [encodeForest, fsize]
  | hcons ty dat cs ts ihcs ihts =>
      intro base parent level prev
      simp [encodeForest, fsize, tsize, ihcs, ihts]
      omega

theorem length_attach (a : List Node) (top : Nat) (ts : List Tree) (level : Nat) :
    (attach a top ts level).length = a.length + fsize ts := by
  cases ts with
  | nil => simp [attach, fsize]
  | cons t ts =>
      simp only [attach]
      cases h : (getN a top).lastChild <;>
        simp [length_encodeForest, fsize]

/-! ## The builder step: allocating and linking one node -/

theorem setN_setN (a : List Node) (i : Nat) (x y : Node) :
    setN (setN a i x) i y = setN a i y := by
  simp [setN, List.set_set]

theorem setN_push (a : List Node) (x y : Node) :
    setN (a ++ [x]) a.length y = a ++ [y] := by
  rw [setN_append_right (Nat.le_refl _)]
  simp [setN]

theorem getN_push (a : List Node) (x : Node) : getN (a ++ [x]) a.length = x :=
  getN_append_len a x []

theorem getN_setN_push (a : List Node) (i : Nat) (X x : Node) :
    getN (setN a i X ++ [x]) a.length = x := by
  rw [← length_setN a i X]; exact getN_push _ _

theorem setN_setN_push (a : List Node) (i : Nat) (X x y : Node) :
    setN (setN a i X ++ [x]) a.length y = setN a i X ++ [y] := by
  rw [← length_setN a i X]; exact setN_push _ _ _

theorem getN_append_cons_len {c : List Node} {m : Nat} (h : c.length = m)
    (x : Node) (l : List Node) : getN (c ++ x :: l) m = x := by
  subst h
  have := getN_append_right c (x :: l) 0
  simpa [getN] using this

theorem setN_append_cons_len {c : List Node} {m : Nat} (h : c.length = m)
    (x y : Node) (l : List Node) : setN (c ++ x :: l) m y = c ++ y :: l := by
  subst h
  simp [setN, List.set_append]

theorem push_addNode_eq {a : List Node} {top level : Nat}
    (h : Inv a top level) (ty : NodeType) (dat : String) :
    addNode (a ++ [{ type := ty, data := dat, level := level }]) top a.length
      = attach a top [Tree.mk ty dat []] level := by
  obtain ⟨htop, hlev, hiff, hlast⟩ := h
  have hgn : getN (a ++ [{ type := ty, data := dat, level := level }]) a.length
      = { type := ty, data := dat, level := level } := getN_push a _
  have hgt : getN (a ++ [{ type := ty, data := dat, level := level }]) top
      = getN a top := getN_append_left htop _
  have hne2 : ¬ level = (getN a top).level := by omega
  by_cases hfc : (getN a top).firstChild = none
  · have hlc : (getN a top).lastChild = none := hiff.mp hfc
    simp only [addNode, attach, hgn, hgt, if_neg hne2, if_pos hlev, hfc, hlc,
      length_setN, setN_push, getN_push, getN_setN_push, setN_setN_push,
      getN_append_left, setN_append_left, getN_setN_self, getN_setN_ne,
      setN_setN, encodeForest, lastIdx, List.isEmpty_nil, Option.getD_none,
      List.append_nil, List.nil_append, htop, if_true]
  · obtain ⟨t, hlc⟩ := Option.ne_none_iff_exists'.mp (fun hn => hfc (hiff.mpr hn))
    obtain ⟨htlt, htt⟩ := hlast t hlc
    obtain ⟨f, hf⟩ := Option.ne_none_iff_exists'.mp hfc
    simp only [addNode, attach, hgn, hgt, if_neg hne2, if_pos hlev, hf, hlc,
      length_setN, setN_push, getN_push, getN_setN_push, setN_setN_push,
      getN_append_left, setN_append_left, getN_setN_self, getN_setN_ne htt,
      setN_setN, encodeForest, lastIdx, List.isEmpty_nil, Option.getD_some,
      List.append_nil, List.nil_append, htop, htlt,
      Option.some.injEq, reduceCtorEq, if_true, if_false]

/-- Growing the (still childless) node just linked: attaching forest `F`
under the fresh node at index `a.length` is the same as having attached the
one-tree forest with children `F` in the first place. -/
theorem attach_fresh {a : List Node} {top level : Nat} (h : Inv a top level)
    (F : List Tree) (ty : NodeType) (dat : String) :
    attach (attach a top [Tree.mk ty dat []] level) a.length F (level + 1)
      = attach a top [Tree.mk ty dat F] level := by
  obtain ⟨htop, hlev, hiff, hlast⟩ := h
  cases F with
  | nil => rfl
  | cons t ts =>
      cases hlc : (getN a top).lastChild with
      | none =>
          simp only [attach, hlc, getN_append_cons_len, setN_append_cons_len,
            length_setN, getN_setN_self, getN_setN_ne, setN_setN,
            getN_append_left, encodeForest, lastIdx, List.isEmpty_nil,
            List.isEmpty_cons, Option.getD_none, Option.getD_some,
            List.append_nil, List.nil_append, List.cons_append,
            List.append_assoc, htop, if_true, if_false, Bool.false_eq_true,
            length_encodeForest, fsize, tsize, List.length_append,
            List.length_cons, List.length_nil, List.length_singleton]
      | some u =>
          obtain ⟨hult, hune⟩ := hlast u hlc
          simp only [attach, hlc, getN_append_cons_len, setN_append_cons_len,
            length_setN, getN_setN_self, getN_setN_ne, setN_setN,
            getN_append_left, encodeForest, lastIdx, List.isEmpty_nil,
            List.isEmpty_cons, Option.getD_none, Option.getD_some,
            List.append_nil, List.nil_append, List.cons_append,
            List.append_assoc, htop, hult, if_true, if_false,
            Bool.false_eq_true, length_encodeForest, fsize, tsize,
            List.length_append, List.length_cons, List.length_nil,
            List.length_singleton]

/-- Attaching one tree and then attaching more trees under the same parent
equals attaching the whole forest at once. -/
theorem attach_cons {a : List Node} {top level : Nat} (h : Inv a top level)
    (t : Tree) (ts : List Tree) :
    attach (attach a top [t] level) top ts level = attach a top (t :: ts) level := by
  obtain ⟨htop, hlev, hiff, hlast⟩ := h
  cases t with
  | mk ty dat cs =>
  cases ts with
  | nil => rfl
  | cons u us =>
      cases hlc : (getN a top).lastChild with
      | none =>
          have hfc : (getN a top).firstChild = none := hiff.mpr hlc
          simp only [attach, hlc, hfc, getN_append_cons_len, setN_append_cons_len,
            length_setN, getN_setN_self, getN_setN_ne, setN_setN,
            getN_append_left, setN_append_left, encodeForest, lastIdx,
            List.isEmpty_nil, List.isEmpty_cons, Option.getD_none,
            Option.getD_some, List.append_nil, List.nil_append,
            List.cons_append, List.append_assoc, htop, if_true, if_false,
            Bool.false_eq_true, length_encodeForest, fsize, tsize,
            List.length_append, List.length_cons, List.length_nil,
            List.length_singleton, Nat.add_assoc, Nat.add_comm,
            Nat.add_left_comm]
      | some u0 =>
          obtain ⟨hult, hune⟩ := hlast u0 hlc
          obtain ⟨f, hf⟩ := Option.ne_none_iff_exists'.mp
            (fun hn => by rw [hiff.mp hn] at hlc; exact Option.noConfusion hlc)
          simp only [attach, hlc, hf, getN_append_cons_len, setN_append_cons_len,
            length_setN, getN_setN_self, getN_setN_ne hune, setN_setN,
            getN_append_left, setN_append_left, encodeForest, lastIdx,
            List.isEmpty_nil, List.isEmpty_cons, Option.getD_none,
            Option.getD_some, List.append_nil, List.nil_append,
            List.cons_append, List.append_assoc, htop, hult, if_true, if_false,
            Bool.false_eq_true, length_encodeForest, fsize, tsize,
            List.length_append, List.length_cons, List.length_nil,
            List.length_singleton, Nat.add_assoc, Nat.add_comm,
            Nat.add_left_comm]

/-- Reading the insertion point after attaching a single tree. -/
theorem getN_attach_single_top {a : List Node} {top level : Nat}
    (h : Inv a top level) (ty : NodeType) (dat : String) (cs : List Tree) :
    getN (attach a top [Tree.mk ty dat cs] level) top
      = { getN a top with
          firstChild := some ((getN a top).firstChild.getD a.length),
          lastChild := some a.length } := by
  obtain ⟨htop, hlev, hiff, hlast⟩ := h
  cases hlc : (getN a top).lastChild with
  | none =>
      simp only [attach, hlc, lastIdx, getN_append_left, length_setN,
        getN_setN_self, htop]
  | some u0 =>
      obtain ⟨hult, hune⟩ := hlast u0 hlc
      simp only [attach, hlc, lastIdx, getN_append_left, length_setN,
        getN_setN_self, getN_setN_ne hune, htop]

/-- Reading the freshly attached (childless) node. -/
theorem getN_attach_single_fresh {a : List Node} {top level : Nat}
    (h : Inv a top level) (ty : NodeType) (dat : String) :
    getN (attach a top [Tree.mk ty dat []] level) a.length
      = { type := ty, data := dat, level := level, parent := some top,
          prevSibling := (getN a top).lastChild } := by
  obtain ⟨htop, hlev, hiff, hlast⟩ := h
  cases hlc : (getN a top).lastChild with
  | none =>
      simp only [attach, hlc, lastIdx, encodeForest, List.isEmpty_nil,
        List.append_nil, getN_append_cons_len, length_setN, if_true]
  | some u0 =>
      obtain ⟨hult, hune⟩ := hlast u0 hlc
      simp only [attach, hlc, lastIdx, encodeForest, List.isEmpty_nil,
        List.append_nil, getN_append_cons_len, length_setN, if_true]

/-- The invariant survives attaching a single tree under `top`. -/
theorem Inv_attach_single {a : List Node} {top level : Nat}
    (h : Inv a top level) (ty : NodeType) (dat : String) (cs : List Tree) :
    Inv (attach a top [Tree.mk ty dat cs] level) top level := by
  have hget := getN_attach_single_top h ty dat cs
  obtain ⟨htop, hlev, hiff, hlast⟩ := h
  have hlen : (attach a top [Tree.mk ty dat cs] level).length
      = a.length + (1 + fsize cs) := by
    rw [length_attach]; simp [fsize, tsize]
  refine ⟨?_, ?_, ?_, ?_⟩
  · omega
  · rw [hget]; exact hlev
  · rw [hget]; simp
  · intro t ht
    rw [hget] at ht
    simp only [Option.some.injEq] at ht
    subst ht
    omega

/-- The invariant holds for the freshly attached childless node at the next
depth. -/
theorem Inv_fresh {a : List Node} {top level : Nat}
    (h : Inv a top level) (ty : NodeType) (dat : String) :
    Inv (attach a top [Tree.mk ty dat []] level) a.length (level + 1) := by
  have hget := getN_attach_single_fresh h ty dat
  obtain ⟨htop, hlev, hiff, hlast⟩ := h
  have hlen : (attach a top [Tree.mk ty dat []] level).length
      = a.length + 1 := by
    rw [length_attach]; simp [fsize, tsize]
  refine ⟨?_, ?_, ?_, ?_⟩
  · omega
  · rw [hget]; exact Nat.lt_succ_self level
  · rw [hget]
  · intro t ht
    rw [hget] at ht
    simp at ht

/-! ## The refinement theorem: `parseValue` computes `attach` of `toForest` -/

mutual

/-- `parseValue` on any heap satisfying the insertion invariant attaches
exactly the forest `toForest x`. -/
theorem parseValue_eq (x : JValue) (a : List Node) (top level : Nat)
    (h : Inv a top level) :
    parseValue x a top level = attach a top (toForest x) level := by
  cases x with
  | null => simp only [parseValue, toForest, attach]
  | bool b =>
      simp only [parseValue, toForest]
      rw [push_addNode_eq h .textNode (if b then "true" else "false")]
  | num s =>
      simp only [parseValue, toForest]
      rw [push_addNode_eq h .textNode s]
  | str s =>
      simp only [parseValue, toForest]
      rw [push_addNode_eq h .textNode s]
  | arr vs =>
      simp only [parseValue, toForest]
      exact parseArr_eq vs a top level h
  | obj kvs =>
      simp only [parseValue, toForest]
      exact parseObj_eq (sortPairs kvs) a top level h
termination_by sizeOf x
decreasing_by all_goals (simp_wf; try rw [sizeOf_sortPairs]); all_goals omega

/-- `parseArr` attaches `arrForest vs`. -/
theorem parseArr_eq (vs : List JValue) (a : List Node) (top level : Nat)
    (h : Inv a top level) :
    parseArr vs a top level = attach a top (arrForest vs) level := by
  cases vs with
  | nil => simp only [parseArr, arrForest, attach]
  | cons v rest =>
      simp only [parseArr, arrForest]
      rw [push_addNode_eq h .elementNode ""]
      rw [parseValue_eq v _ _ _ (Inv_fresh h .elementNode "")]
      rw [attach_fresh h (toForest v) .elementNode ""]
      rw [parseArr_eq rest _ top level (Inv_attach_single h .elementNode "" (toForest v))]
      rw [attach_cons h (Tree.mk .elementNode "" (toForest v)) (arrForest rest)]
termination_by sizeOf vs
decreasing_by all_goals simp_wf; all_goals omega

/-- `parseObj` attaches `objForest ps`. -/
theorem parseObj_eq (ps : List (String × JValue)) (a : List Node)
    (top level : Nat) (h : Inv a top level) :
    parseObj ps a top level = attach a top (objForest ps) level := by
  cases ps with
  | nil => simp only [parseObj, objForest, attach]
  | cons kv rest =>
      obtain ⟨k, v⟩ := kv
      simp only [parseObj, objForest]
      rw [push_addNode_eq h .elementNode k]
      rw [parseValue_eq v _ _ _ (Inv_fresh h .elementNode k)]
      rw [attach_fresh h (toForest v) .elementNode k]
      rw [parseObj_eq rest _ top level (Inv_attach_single h .elementNode k (toForest v))]
      rw [attach_cons h (Tree.mk .elementNode k (toForest v)) (objForest rest)]
termination_by sizeOf ps
decreasing_by all_goals simp_wf; all_goals omega

end

/-! ## Closed form of `parse` -/

/-- The heap `parse` produces, in closed form: the document record at index
0 (child span covering the top-level forest) followed by the preorder
layout of `toForest v`. -/
def parseSpec (v : JValue) : List Node :=
  match toForest v with
  | [] => [docNode]
  | t :: ts =>
      { docNode with firstChild := some 1, lastChild := lastIdx (t :: ts) 1 } ::
        encodeForest (t :: ts) 1 0 1 none

theorem Inv_doc : Inv [docNode] 0 1 := by
  refine ⟨by simp, by simp [getN, docNode], by simp [getN, docNode], ?_⟩
  intro t ht
  simp [getN, docNode] at ht

theorem parse_eq_parseSpec (v : JValue) : parse v = parseSpec v := by
  show parseValue v [docNode] 0 1 = parseSpec v
  rw [parseValue_eq v [docNode] 0 1 Inv_doc]
  cases hF : toForest v with
  | nil => simp [attach, parseSpec, hF]
  | cons t ts =>
      simp only [parseSpec, hF, attach]
      simp [getN, setN, docNode, lastIdx]

/-! ## Slices of a heap -/

/-- `E` is the slice of heap `A` starting at index `base`. -/
def EmbedsAt (A : List Node) (base : Nat) (E : List Node) : Prop :=
  base + E.length ≤ A.length ∧ ∀ j, j < E.length → getN A (base + j) = getN E j

theorem embedsAt_cons (d : Node) (E : List Node) : EmbedsAt (d :: E) 1 E := by
  refine ⟨by simp; omega, ?_⟩
  intro j hj
  simp only [getN, List.getElem?_cons_succ]
  rw [Nat.add_comm 1 j]
  simp [List.getElem?_cons_succ]

theorem EmbedsAt.append_split {A : List Node} {base : Nat} {E1 E2 : List Node}
    (h : EmbedsAt A base (E1 ++ E2)) :
    EmbedsAt A base E1 ∧ EmbedsAt A (base + E1.length) E2 := by
  obtain ⟨hlen, hget⟩ := h
  rw [List.length_append] at hlen
  refine ⟨⟨by omega, ?_⟩, ⟨by omega, ?_⟩⟩
  · intro j hj
    rw [hget j (by simp only [List.length_append]; omega), getN_append_left hj]
  · intro j hj
    have := hget (E1.length + j) (by simp only [List.length_append]; omega)
    rw [getN_append_right] at this
    rw [show base + E1.length + j = base + (E1.length + j) by omega]
    exact this

theorem EmbedsAt.head {A : List Node} {base : Nat} {x : Node} {E : List Node}
    (h : EmbedsAt A base (x :: E)) :
    getN A base = x ∧ EmbedsAt A (base + 1) E := by
  obtain ⟨hlen, hget⟩ := h
  simp only [List.length_cons] at hlen
  refine ⟨?_, ⟨by omega, ?_⟩⟩
  · have := hget 0 (by simp only [List.length_cons]; omega)
    simpa [getN] using this
  · intro j hj
    have := hget (1 + j) (by simp only [List.length_cons]; omega)
    rw [Nat.add_comm 1 j] at this
    simp only [getN, List.getElem?_cons_succ] at this
    rw [show base + 1 + j = base + (j + 1) by omega]
    exact this

/-! ## Root index lists -/

theorem length_rootIdxs (F : List Tree) : ∀ base, (rootIdxs F base).length = F.length := by
  induction F with
  | nil => intro base; simp [rootIdxs]
  | cons t ts ih => intro base; simp [rootIdxs, ih]

theorem length_le_fsize (F : List Tree) : F.length ≤ fsize F := by
  induction F with
  | nil => simp [fsize]
  | cons t ts ih => have := tsize_pos t; simp only [fsize, List.length_cons]; omega

theorem mem_rootIdxs_bounds {F : List Tree} :
    ∀ {base x}, x ∈ rootIdxs F base → base ≤ x ∧ x < base + fsize F := by
  induction F with
  | nil => intro base x hx; simp [rootIdxs] at hx
  | cons t ts ih =>
      intro base x hx
      have := tsize_pos t
      simp only [rootIdxs, List.mem_cons] at hx
      rcases hx with rfl | hx
      · simp only [fsize]; omega
      · have := ih hx
        simp only [fsize]; omega

theorem rootIdxs_pairwise_lt (F : List Tree) :
    ∀ base, (rootIdxs F base).Pairwise (· < ·) := by
  induction F with
  | nil => intro base; simp [rootIdxs]
  | cons t ts ih =>
      intro base
      have := tsize_pos t
      simp only [rootIdxs, List.pairwise_cons]
      refine ⟨?_, ih _⟩
      intro x hx
      have := (mem_rootIdxs_bounds hx).1
      omega

theorem lastIdx_eq_getLast? (F : List Tree) :
    ∀ base, lastIdx F base = (rootIdxs F base).getLast? := by
  induction F with
  | nil => intro base; simp [lastIdx, rootIdxs]
  | cons t ts ih =>
      intro base
      cases ts with
      | nil => simp [lastIdx, rootIdxs]
      | cons u us =>
          rw [show lastIdx (t :: u :: us) base = lastIdx (u :: us) (base + tsize t) from rfl]
          rw [ih]
          rw [show rootIdxs (t :: u :: us) base
              = base :: rootIdxs (u :: us) (base + tsize t) from rfl]
          rw [show rootIdxs (u :: us) (base + tsize t)
              = (base + tsize t) :: rootIdxs us (base + tsize t + tsize u) from rfl]
          rw [List.getLast?_cons_cons]

/-- The sibling chain walk starting at the first root of an encoded forest
visits exactly the roots, provided the fuel covers their number. -/
theorem childChain_encode {A : List Node} :
    ∀ (F : List Tree) {base parent level : Nat} {prev : Option Nat} {fuel : Nat},
    EmbedsAt A base (encodeForest F base parent level prev) →
    F.length ≤ fuel → F ≠ [] →
    childChain A fuel (some base) = rootIdxs F base := by
  intro F
  induction F with
  | nil => intro base parent level prev fuel h hf hne; exact absurd rfl hne
  | cons t ts ih =>
      intro base parent level prev fuel h hf hne
      obtain ⟨ty, dat, cs⟩ := t
      rw [show encodeForest (Tree.mk ty dat cs :: ts) base parent level prev
          = { type := ty, data := dat, level := level, parent := some parent,
              prevSibling := prev,
              nextSibling := if ts.isEmpty then none
                else some (base + 1 + fsize cs),
              firstChild := if cs.isEmpty then none else some (base + 1),
              lastChild := lastIdx cs (base + 1) } ::
            (encodeForest cs (base + 1) base (level + 1) none ++
             encodeForest ts (base + 1 + fsize cs) parent level (some base))
          by simp only [encodeForest]] at h
      obtain ⟨hR, hrest⟩ := h.head
      obtain ⟨hcs, hts⟩ := hrest.append_split
      rw [length_encodeForest] at hts
      cases fuel with
      | zero => simp at hf
      | succ fuel =>
          rw [show childChain A (fuel + 1) (some base)
              = base :: childChain A fuel (getN A base).nextSibling from rfl]
          rw [hR]
          cases ts with
          | nil =>
              simp only [List.isEmpty_nil, if_true, rootIdxs, childChain]
          | cons u us =>
              simp only [List.isEmpty_cons, if_false, Bool.false_eq_true]
              have harith : base + 1 + fsize cs = base + tsize (Tree.mk ty dat cs) := by
                simp only [tsize]; omega
              rw [show rootIdxs (Tree.mk ty dat cs :: u :: us) base
                  = base :: rootIdxs (u :: us) (base + tsize (Tree.mk ty dat cs))
                  from rfl]
              rw [← harith]
              have hts' : EmbedsAt A (base + 1 + fsize cs)
                  (encodeForest (u :: us) (base + 1 + fsize cs) parent level
                    (some base)) := by
                have : base + (1 + fsize cs) = base + 1 + fsize cs := by omega
                rw [← this] at hts ⊢
                exact hts
              rw [ih hts' (by simp only [List.length_cons] at hf ⊢; omega)
                (by simp)]

/-! ## Per-node facts over an encoded forest -/

/-- Adjacent siblings point at each other. -/
def SibRel (A : List Node) (x y : Nat) : Prop :=
  (getN A x).nextSibling = some y ∧ (getN A y).prevSibling = some x

/-- What holds of the heap record at index `i` when the subtree `t` is laid
out there: type, data and child span match the tree, `ChildNodes` walks
exactly the children's root indices, and the children's records are the
encoded child forest. -/
def TreeFacts (A : List Node) (i : Nat) (t : Tree) : Prop :=
  (getN A i).type = t.rootType ∧
  (getN A i).data = t.rootData ∧
  (getN A i).firstChild = (if t.childForest.isEmpty then none else some (i + 1)) ∧
  (getN A i).lastChild = lastIdx t.childForest (i + 1) ∧
  ChildNodes A i = rootIdxs t.childForest (i + 1) ∧
  EmbedsAt A (i + 1)
    (encodeForest t.childForest (i + 1) i ((getN A i).level + 1) none)

theorem forest_facts {A : List Node} :
    ∀ (F : List Tree), ∀ {base parent level : Nat} {prev : Option Nat},
    EmbedsAt A base (encodeForest F base parent level prev) →
    (∀ i ∈ rootIdxs F base,
        (getN A i).parent = some parent ∧ (getN A i).level = level) ∧
    List.Chain' (SibRel A) (rootIdxs F base) ∧
    (∀ i ∈ (rootIdxs F base).head?, (getN A i).prevSibling = prev) ∧
    (∀ pr ∈ forestIdx F base, TreeFacts A pr.1 pr.2) := by
  intro F
  induction F using forestInd with
  | hnil =>
      intro base parent level prev h
      simp [rootIdxs, forestIdx]
  | hcons ty dat cs ts ihcs ihts =>
      intro base parent level prev h
      rw [show encodeForest (Tree.mk ty dat cs :: ts) base parent level prev
          = { type := ty, data := dat, level := level, parent := some parent,
              prevSibling := prev,
              nextSibling := if ts.isEmpty then none
                else some (base + 1 + fsize cs),
              firstChild := if cs.isEmpty then none else some (base + 1),
              lastChild := lastIdx cs (base + 1) } ::
            (encodeForest cs (base + 1) base (level + 1) none ++
             encodeForest ts (base + 1 + fsize cs) parent level (some base))
          by simp only [encodeForest]] at h
      obtain ⟨hR, hrest⟩ := h.head
      obtain ⟨hcs, hts0⟩ := hrest.append_split
      rw [length_encodeForest] at hts0
      have hts : EmbedsAt A (base + 1 + fsize cs)
          (encodeForest ts (base + 1 + fsize cs) parent level (some base)) := by
        have harith : base + 1 + fsize cs = base + 1 + fsize cs := rfl
        have : base + (1 + fsize cs) = base + 1 + fsize cs := by omega
        rw [← this]
        rw [← this] at hts0
        exact hts0
      have harith : base + tsize (Tree.mk ty dat cs) = base + 1 + fsize cs := by
        simp only [tsize]; omega
      obtain ⟨tsRoots, tsChain, tsPrev, tsNodes⟩ := ihts hts
      obtain ⟨csRoots, csChain, csPrev, csNodes⟩ := ihcs hcs
      refine ⟨?_, ?_, ?_, ?_⟩
      · intro i hi
        rw [show rootIdxs (Tree.mk ty dat cs :: ts) base
            = base :: rootIdxs ts (base + tsize (Tree.mk ty dat cs)) from rfl,
          harith] at hi
        rcases List.mem_cons.mp hi with rfl | hi
        · rw [hR]; exact ⟨rfl, rfl⟩
        · exact tsRoots i hi
      · rw [show rootIdxs (Tree.mk ty dat cs :: ts) base
            = base :: rootIdxs ts (base + tsize (Tree.mk ty dat cs)) from rfl,
          harith]
        rw [List.chain'_cons']
        refine ⟨?_, tsChain⟩
        intro y hy
        cases ts with
        | nil => simp [rootIdxs] at hy
        | cons u us =>
            rw [show rootIdxs (u :: us) (base + 1 + fsize cs)
                = (base + 1 + fsize cs)
                  :: rootIdxs us (base + 1 + fsize cs + tsize u) from rfl] at hy
            simp only [List.head?_cons, Option.mem_def, Option.some.injEq] at hy
            subst hy
            constructor
            · rw [hR]; simp
            · exact tsPrev _ (by
                rw [show rootIdxs (u :: us) (base + 1 + fsize cs)
                    = (base + 1 + fsize cs)
                      :: rootIdxs us (base + 1 + fsize cs + tsize u) from rfl]
                simp)
      · intro i hi
        rw [show rootIdxs (Tree.mk ty dat cs :: ts) base
            = base :: rootIdxs ts (base + tsize (Tree.mk ty dat cs)) from rfl] at hi
        simp only [List.head?_cons, Option.mem_def, Option.some.injEq] at hi
        subst hi
        rw [hR]
      · intro pr hpr
        rw [show forestIdx (Tree.mk ty dat cs :: ts) base
            = (base, Tree.mk ty dat cs) ::
              (forestIdx cs (base + 1) ++ forestIdx ts (base + 1 + fsize cs))
            by simp only [forestIdx]] at hpr
        rcases List.mem_cons.mp hpr with rfl | hpr
        · refine ⟨?_, ?_, ?_, ?_, ?_, ?_⟩
          · rw [hR]; rfl
          · rw [hR]; rfl
          · rw [hR]; rfl
          · rw [hR]; rfl
          · cases cs with
            | nil =>
                rw [show ChildNodes A base
                    = childChain A A.length (getN A base).firstChild from rfl]
                rw [hR]
                simp [childChain, rootIdxs]
            | cons c cts =>
                rw [show ChildNodes A base
                    = childChain A A.length (getN A base).firstChild from rfl]
                rw [hR]
                simp only [List.isEmpty_cons, if_false, Bool.false_eq_true]
                have hbound : (c :: cts).length ≤ A.length := by
                  have h1 := hcs.1
                  rw [length_encodeForest] at h1
                  have h2 := length_le_fsize (c :: cts)
                  omega
                exact childChain_encode (c :: cts) hcs hbound (by simp)
          · show EmbedsAt A (base + 1)
              (encodeForest cs (base + 1) base ((getN A base).level + 1) none)
            rw [hR]
            exact hcs
        · rcases List.mem_append.mp hpr with hpr | hpr
          · exact csNodes pr hpr
          · exact tsNodes pr hpr

/-! ## `InnerText` and `outputXML` over an encoded forest -/

theorem innerText_encode {A : List Node} :
    ∀ (F : List Tree), ∀ {base parent level : Nat} {prev : Option Nat},
    ForestWF F → EmbedsAt A base (encodeForest F base parent level prev) →
    (∀ fuel, 2 * fsize F ≤ fuel → F ≠ [] →
        innerTextChain A fuel (some base) = forestText F) ∧
    (∀ pr ∈ forestIdx F base, ∀ fuel, 2 * tsize pr.2 ≤ fuel + 1 →
        innerTextNode A fuel pr.1 = treeText pr.2) := by
  intro F
  induction F using forestInd with
  | hnil =>
      intro base parent level prev hwf h
      refine ⟨?_, ?_⟩
      · intro fuel hfuel hne; exact absurd rfl hne
      · intro pr hpr; simp [forestIdx] at hpr
  | hcons ty dat cs ts ihcs ihts =>
      intro base parent level prev hwf h
      obtain ⟨⟨hty, htext, hwfcs⟩, hwfts⟩ :
          ((ty = NodeType.elementNode ∨ ty = NodeType.textNode) ∧
            (ty = NodeType.textNode → cs = []) ∧ ForestWF cs) ∧ ForestWF ts := hwf
      rw [show encodeForest (Tree.mk ty dat cs :: ts) base parent level prev
          = { type := ty, data := dat, level := level, parent := some parent,
              prevSibling := prev,
              nextSibling := if ts.isEmpty then none
                else some (base + 1 + fsize cs),
              firstChild := if cs.isEmpty then none else some (base + 1),
              lastChild := lastIdx cs (base + 1) } ::
            (encodeForest cs (base + 1) base (level + 1) none ++
             encodeForest ts (base + 1 + fsize cs) parent level (some base))
          by simp only [encodeForest]] at h
      obtain ⟨hR, hrest⟩ := h.head
      obtain ⟨hcs, hts0⟩ := hrest.append_split
      rw [length_encodeForest] at hts0
      have hts : EmbedsAt A (base + 1 + fsize cs)
          (encodeForest ts (base + 1 + fsize cs) parent level (some base)) := by
        have heq : base + (1 + fsize cs) = base + 1 + fsize cs := by omega
        rw [← heq]
        rw [← heq] at hts0
        exact hts0
      obtain ⟨csChain, csNodes⟩ := ihcs hwfcs hcs
      obtain ⟨tsChain, tsNodes⟩ := ihts hwfts hts
      have hnode : ∀ fuel, 2 * tsize (Tree.mk ty dat cs) ≤ fuel + 1 →
          innerTextNode A fuel base = treeText (Tree.mk ty dat cs) := by
        intro fuel hfuel
        have h1 : 1 ≤ fuel := by
          have := tsize_pos (Tree.mk ty dat cs); omega
        obtain ⟨fuel', rfl⟩ : ∃ f, fuel = f + 1 :=
          ⟨fuel - 1, by omega⟩
        rw [show innerTextNode A (fuel' + 1) base
            = if (getN A base).type = .textNode then (getN A base).data
              else innerTextChain A fuel' (getN A base).firstChild from rfl]
        have htyEq : (getN A base).type = ty := by rw [hR]
        have hfcEq : (getN A base).firstChild
            = if cs.isEmpty then none else some (base + 1) := by rw [hR]
        have hdatEq : (getN A base).data = dat := by rw [hR]
        rcases hty with hty | hty
        · subst hty
          rw [if_neg (by rw [htyEq]; simp)]
          rw [show treeText (Tree.mk NodeType.elementNode dat cs)
              = (if NodeType.elementNode = NodeType.textNode then dat else "")
                ++ forestText cs by simp only [treeText]]
          rw [if_neg (by simp)]
          rw [hfcEq]
          cases cs with
          | nil =>
              simp only [List.isEmpty_nil, if_true, forestText]
              rw [show innerTextChain A fuel' none = "" by
                cases fuel' <;> rfl]
              rfl
          | cons c cts =>
              simp only [List.isEmpty_cons, if_false, Bool.false_eq_true]
              rw [csChain fuel' (by
                simp only [tsize] at hfuel; omega) (by simp)]
              simp
        · subst hty
          rw [if_pos htyEq]
          have hcs0 : cs = [] := htext rfl
          subst hcs0
          rw [show treeText (Tree.mk NodeType.textNode dat [])
              = (if NodeType.textNode = NodeType.textNode then dat else "")
                ++ forestText [] by simp only [treeText]]
          simp [forestText, hdatEq]
      refine ⟨?_, ?_⟩
      · intro fuel hfuel hne
        have h2 : 1 ≤ fuel := by
          have := tsize_pos (Tree.mk ty dat cs)
          simp only [fsize] at hfuel
          omega
        obtain ⟨fuel', rfl⟩ : ∃ f, fuel = f + 1 := ⟨fuel - 1, by omega⟩
        rw [show innerTextChain A (fuel' + 1) (some base)
            = innerTextNode A fuel' base
              ++ innerTextChain A fuel' (getN A base).nextSibling from rfl]
        rw [show forestText (Tree.mk ty dat cs :: ts)
            = treeText (Tree.mk ty dat cs) ++ forestText ts
            by simp only [forestText]]
        rw [hnode fuel' (by simp only [fsize] at hfuel; omega)]
        rw [hR]
        cases ts with
        | nil =>
            simp only [List.isEmpty_nil, if_true, forestText]
            rw [show innerTextChain A fuel' none = "" by cases fuel' <;> rfl]
        | cons u us =>
            simp only [List.isEmpty_cons, if_false, Bool.false_eq_true]
            rw [tsChain fuel' (by
              have := tsize_pos (Tree.mk ty dat cs)
              simp only [fsize, tsize] at hfuel ⊢
              omega) (by simp)]
      · intro pr hpr fuel hfuel
        rw [show forestIdx (Tree.mk ty dat cs :: ts) base
            = (base, Tree.mk ty dat cs) ::
              (forestIdx cs (base + 1) ++ forestIdx ts (base + 1 + fsize cs))
            by simp only [forestIdx]] at hpr
        rcases List.mem_cons.mp hpr with rfl | hpr
        · exact hnode fuel hfuel
        · rcases List.mem_append.mp hpr with hpr | hpr
          · exact csNodes pr hpr fuel hfuel
          · exact tsNodes pr hpr fuel hfuel

theorem outputXML_encode {A : List Node} :
    ∀ (F : List Tree), ∀ {base parent level : Nat} {prev : Option Nat},
    ForestWF F → EmbedsAt A base (encodeForest F base parent level prev) →
    (∀ fuel, 2 * fsize F ≤ fuel → F ≠ [] →
        outputXMLChain A fuel (some base) = renderForest F) ∧
    (∀ pr ∈ forestIdx F base, ∀ fuel, 2 * tsize pr.2 ≤ fuel + 1 →
        outputXMLNode A fuel pr.1 = renderTree pr.2) := by
  intro F
  induction F using forestInd with
  | hnil =>
      intro base parent level prev hwf h
      refine ⟨?_, ?_⟩
      · intro fuel hfuel hne; exact absurd rfl hne
      · intro pr hpr; simp [forestIdx] at hpr
  | hcons ty dat cs ts ihcs ihts =>
      intro base parent level prev hwf h
      obtain ⟨⟨hty, htext, hwfcs⟩, hwfts⟩ :
          ((ty = NodeType.elementNode ∨ ty = NodeType.textNode) ∧
            (ty = NodeType.textNode → cs = []) ∧ ForestWF cs) ∧ ForestWF ts := hwf
      rw [show encodeForest (Tree.mk ty dat cs :: ts) base parent level prev
          = { type := ty, data := dat, level := level, parent := some parent,
              prevSibling := prev,
              nextSibling := if ts.isEmpty then none
                else some (base + 1 + fsize cs),
              firstChild := if cs.isEmpty then none else some (base + 1),
              lastChild := lastIdx cs (base + 1) } ::
            (encodeForest cs (base + 1) base (level + 1) none ++
             encodeForest ts (base + 1 + fsize cs) parent level (some base))
          by simp only [encodeForest]] at h
      obtain ⟨hR, hrest⟩ := h.head
      obtain ⟨hcs, hts0⟩ := hrest.append_split
      rw [length_encodeForest] at hts0
      have hts : EmbedsAt A (base + 1 + fsize cs)
          (encodeForest ts (base + 1 + fsize cs) parent level (some base)) := by
        have heq : base + (1 + fsize cs) = base + 1 + fsize cs := by omega
        rw [← heq]
        rw [← heq] at hts0
        exact hts0
      obtain ⟨csChain, csNodes⟩ := ihcs hwfcs hcs
      obtain ⟨tsChain, tsNodes⟩ := ihts hwfts hts
      have hnode : ∀ fuel, 2 * tsize (Tree.mk ty dat cs) ≤ fuel + 1 →
          outputXMLNode A fuel base = renderTree (Tree.mk ty dat cs) := by
        intro fuel hfuel
        have h1 : 1 ≤ fuel := by
          have := tsize_pos (Tree.mk ty dat cs); omega
        obtain ⟨fuel', rfl⟩ : ∃ f, fuel = f + 1 := ⟨fuel - 1, by omega⟩
        rw [show outputXMLNode A (fuel' + 1) base
            = if (getN A base).type = .textNode then (getN A base).data
              else
                (if (getN A base).type = .elementNode then
                  (if (getN A base).data = "" then "<element>"
                   else "<" ++ (getN A base).data ++ ">")
                 else "")
                ++ outputXMLChain A fuel' (getN A base).firstChild
                ++ (if (getN A base).data = "" then "</element>"
                    else "</" ++ (getN A base).data ++ ">") from rfl]
        have htyEq : (getN A base).type = ty := by rw [hR]
        have hfcEq : (getN A base).firstChild
            = if cs.isEmpty then none else some (base + 1) := by rw [hR]
        have hdatEq : (getN A base).data = dat := by rw [hR]
        rcases hty with hty | hty
        · subst hty
          rw [if_neg (by rw [htyEq]; simp)]
          rw [if_pos htyEq, hdatEq, hfcEq]
          rw [show renderTree (Tree.mk NodeType.elementNode dat cs)
              = (if dat = "" then "<element>" else "<" ++ dat ++ ">")
                ++ renderForest cs
                ++ (if dat = "" then "</element>" else "</" ++ dat ++ ">")
              by simp only [renderTree]]
          cases cs with
          | nil =>
              simp only [List.isEmpty_nil, if_true, renderForest]
              rw [show outputXMLChain A fuel' none = "" by
                cases fuel' <;> rfl]
          | cons c cts =>
              simp only [List.isEmpty_cons, if_false, Bool.false_eq_true]
              rw [csChain fuel' (by
                simp only [tsize] at hfuel; omega) (by simp)]
        · subst hty
          rw [if_pos htyEq]
          rw [show renderTree (Tree.mk NodeType.textNode dat cs)
              = dat by simp only [renderTree]]
          exact hdatEq
      refine ⟨?_, ?_⟩
      · intro fuel hfuel hne
        have h2 : 1 ≤ fuel := by
          have := tsize_pos (Tree.mk ty dat cs)
          simp only [fsize] at hfuel
          omega
        obtain ⟨fuel', rfl⟩ : ∃ f, fuel = f + 1 := ⟨fuel - 1, by omega⟩
        rw [show outputXMLChain A (fuel' + 1) (some base)
            = outputXMLNode A fuel' base
              ++ outputXMLChain A fuel' (getN A base).nextSibling from rfl]
        rw [show renderForest (Tree.mk ty dat cs :: ts)
            = renderTree (Tree.mk ty dat cs) ++ renderForest ts
            by simp only [renderForest]]
        rw [hnode fuel' (by simp only [fsize] at hfuel; omega)]
        have hnsEq : (getN A base).nextSibling
            = if ts.isEmpty then none else some (base + 1 + fsize cs) := by
          rw [hR]
        rw [hnsEq]
        cases ts with
        | nil =>
            simp only [List.isEmpty_nil, if_true, renderForest]
            rw [show outputXMLChain A fuel' none = "" by cases fuel' <;> rfl]
        | cons u us =>
            simp only [List.isEmpty_cons, if_false, Bool.false_eq_true]
            rw [tsChain fuel' (by
              have := tsize_pos (Tree.mk ty dat cs)
              simp only [fsize, tsize] at hfuel ⊢
              omega) (by simp)]
      · intro pr hpr fuel hfuel
        rw [show forestIdx (Tree.mk ty dat cs :: ts) base
            = (base, Tree.mk ty dat cs) ::
              (forestIdx cs (base + 1) ++ forestIdx ts (base + 1 + fsize cs))
            by simp only [forestIdx]] at hpr
        rcases List.mem_cons.mp hpr with rfl | hpr
        · exact hnode fuel hfuel
        · rcases List.mem_append.mp hpr with hpr | hpr
          · exact csNodes pr hpr fuel hfuel
          · exact tsNodes pr hpr fuel hfuel

/-! ## The built forest is well formed -/

mutual

theorem toForest_wf (x : JValue) : ForestWF (toForest x) := by
  cases x with
  | null => simp [toForest, ForestWF]
  | bool b => simp [toForest, ForestWF, TreeWF]
  | num s => simp [toForest, ForestWF, TreeWF]
  | str s => simp [toForest, ForestWF, TreeWF]
  | arr vs => simp only [toForest]; exact arrForest_wf vs
  | obj kvs => simp only [toForest]; exact objForest_wf (sortPairs kvs)
termination_by sizeOf x
decreasing_by all_goals (simp_wf; try rw [sizeOf_sortPairs]); all_goals omega

theorem arrForest_wf (vs : List JValue) : ForestWF (arrForest vs) := by
  cases vs with
  | nil => simp [arrForest, ForestWF]
  | cons v rest =>
      rw [show arrForest (v :: rest)
          = Tree.mk .elementNode "" (toForest v) :: arrForest rest
          by simp only [arrForest]]
      exact ⟨⟨Or.inl rfl, by simp, toForest_wf v⟩, arrForest_wf rest⟩
termination_by sizeOf vs
decreasing_by all_goals simp_wf; all_goals omega

theorem objForest_wf (ps : List (String × JValue)) : ForestWF (objForest ps) := by
  cases ps with
  | nil => simp [objForest, ForestWF]
  | cons kv rest =>
      obtain ⟨k, v⟩ := kv
      rw [show objForest ((k, v) :: rest)
          = Tree.mk .elementNode k (toForest v) :: objForest rest
          by simp only [objForest]]
      exact ⟨⟨Or.inl rfl, by simp, toForest_wf v⟩, objForest_wf rest⟩
termination_by sizeOf ps
decreasing_by all_goals simp_wf; all_goals omega

end

/-! ## Node counts -/

mutual

/-- Modelled from the spec: the number of tree nodes a JSON value
contributes — 0 for `null` (nulls vanish), 1 for a scalar, and for arrays
and objects one element node per entry plus the entry's own count. -/
def vsize : JValue → Nat
  | .null => 0
  | .bool _ => 1
  | .num _ => 1
  | .str _ => 1
  | .arr vs => asize vs
  | .obj kvs => osize kvs

/-- Node count of array elements. -/
def asize : List JValue → Nat
  | [] => 0
  | v :: vs => 1 + vsize v + asize vs

/-- Node count of object members. -/
def osize : List (String × JValue) → Nat
  | [] => 0
  | (_, v) :: ps => 1 + vsize v + osize ps

end

theorem osize_perm {ps qs : List (String × JValue)} (h : ps.Perm qs) :
    osize ps = osize qs := by
  induction h with
  | nil => rfl
  | cons x h ih =>
      obtain ⟨k, v⟩ := x
      simp only [osize, ih]
  | swap x y l =>
      obtain ⟨k, v⟩ := x
      obtain ⟨k', v'⟩ := y
      simp only [osize]
      omega
  | trans h1 h2 ih1 ih2 => rw [ih1, ih2]

mutual

theorem fsize_toForest (x : JValue) : fsize (toForest x) = vsize x := by
  cases x with
  | null => simp [toForest, vsize, fsize]
  | bool b => simp [toForest, vsize, fsize, tsize]
  | num s => simp [toForest, vsize, fsize, tsize]
  | str s => simp [toForest, vsize, fsize, tsize]
  | arr vs =>
      rw [show toForest (.arr vs) = arrForest vs by simp only [toForest]]
      rw [show vsize (.arr vs) = asize vs by simp only [vsize]]
      exact fsize_arrForest vs
  | obj kvs =>
      rw [show toForest (.obj kvs) = objForest (sortPairs kvs)
          by simp only [toForest]]
      rw [show vsize (.obj kvs) = osize kvs by simp only [vsize]]
      rw [fsize_objForest (sortPairs kvs)]
      exact osize_perm (sortPairs_perm kvs)
termination_by sizeOf x
decreasing_by all_goals (simp_wf; try rw [sizeOf_sortPairs]); all_goals omega

theorem fsize_arrForest (vs : List JValue) : fsize (arrForest vs) = asize vs := by
  cases vs with
  | nil => simp [arrForest, asize, fsize]
  | cons v rest =>
      rw [show arrForest (v :: rest)
          = Tree.mk .elementNode "" (toForest v) :: arrForest rest
          by simp only [arrForest]]
      simp only [fsize, tsize, asize]
      rw [fsize_toForest v, fsize_arrForest rest]
termination_by sizeOf vs
decreasing_by all_goals simp_wf; all_goals omega

theorem fsize_objForest (ps : List (String × JValue)) :
    fsize (objForest ps) = osize ps := by
  cases ps with
  | nil => simp [objForest, osize, fsize]
  | cons kv rest =>
      obtain ⟨k, v⟩ := kv
      rw [show objForest ((k, v) :: rest)
          = Tree.mk .elementNode k (toForest v) :: objForest rest
          by simp only [objForest]]
      simp only [fsize, tsize, osize]
      rw [fsize_toForest v, fsize_objForest rest]
termination_by sizeOf ps
decreasing_by all_goals simp_wf; all_goals omega

end

/-! ## Canonical text -/

mutual

theorem forestText_toForest (x : JValue) :
    forestText (toForest x) = canonicalText x := by
  cases x with
  | null => simp [toForest, canonicalText, forestText]
  | bool b => simp [toForest, canonicalText, forestText, treeText]
  | num s => simp [toForest, canonicalText, forestText, treeText]
  | str s => simp [toForest, canonicalText, forestText, treeText]
  | arr vs =>
      rw [show toForest (.arr vs) = arrForest vs by simp only [toForest]]
      rw [show canonicalText (.arr vs) = arrText vs by simp only [canonicalText]]
      exact forestText_arrForest vs
  | obj kvs =>
      rw [show toForest (.obj kvs) = objForest (sortPairs kvs)
          by simp only [toForest]]
      rw [show canonicalText (.obj kvs) = objText (sortPairs kvs)
          by simp only [canonicalText]]
      exact forestText_objForest (sortPairs kvs)
termination_by sizeOf x
decreasing_by all_goals (simp_wf; try rw [sizeOf_sortPairs]); all_goals omega

theorem forestText_arrForest (vs : List JValue) :
    forestText (arrForest vs) = arrText vs := by
  cases vs with
  | nil => simp [arrForest, arrText, forestText]
  | cons v rest =>
      rw [show arrForest (v :: rest)
          = Tree.mk .elementNode "" (toForest v) :: arrForest rest
          by simp only [arrForest]]
      rw [show arrText (v :: rest) = canonicalText v ++ arrText rest
          by simp only [arrText]]
      simp only [forestText, treeText]
      rw [forestText_toForest v, forestText_arrForest rest]
      simp
termination_by sizeOf vs
decreasing_by all_goals simp_wf; all_goals omega

theorem forestText_objForest (ps : List (String × JValue)) :
    forestText (objForest ps) = objText ps := by
  cases ps with
  | nil => simp [objForest, objText, forestText]
  | cons kv rest =>
      obtain ⟨k, v⟩ := kv
      rw [show objForest ((k, v) :: rest)
          = Tree.mk .elementNode k (toForest v) :: objForest rest
          by simp only [objForest]]
      rw [show objText ((k, v) :: rest) = canonicalText v ++ objText rest
          by simp only [objText]]
      simp only [forestText, treeText]
      rw [forestText_toForest v, forestText_objForest rest]
      simp
termination_by sizeOf ps
decreasing_by all_goals simp_wf; all_goals omega

end

/-! ## Document-level corollaries -/

theorem parse_length (v : JValue) :
    (parse v).length = 1 + fsize (toForest v) := by
  rw [parse_eq_parseSpec]
  cases hF : toForest v with
  | nil => simp [parseSpec, hF, fsize, docNode]
  | cons t ts =>
      simp only [parseSpec, hF]
      simp [length_encodeForest]
      omega

theorem parse_embeds (v : JValue) :
    EmbedsAt (parse v) 1 (encodeForest (toForest v) 1 0 1 none) := by
  rw [parse_eq_parseSpec]
  cases hF : toForest v with
  | nil =>
      refine ⟨?_, ?_⟩
      · simp [parseSpec, hF, encodeForest]
      · intro j hj; simp [encodeForest] at hj
  | cons t ts =>
      simp only [parseSpec, hF]
      exact embedsAt_cons _ _

theorem getN_parse_root (v : JValue) :
    getN (parse v) 0
      = { docNode with
          firstChild := if (toForest v).isEmpty then none else some 1,
          lastChild := lastIdx (toForest v) 1 } := by
  rw [parse_eq_parseSpec]
  cases hF : toForest v with
  | nil => simp [parseSpec, hF, getN, docNode, lastIdx]
  | cons t ts => simp [parseSpec, hF, getN, docNode]

theorem ChildNodes_parse_root (v : JValue) :
    ChildNodes (parse v) 0 = rootIdxs (toForest v) 1 := by
  rw [show ChildNodes (parse v) 0
      = childChain (parse v) (parse v).length (getN (parse v) 0).firstChild
      from rfl]
  rw [getN_parse_root]
  cases hF : toForest v with
  | nil => simp [rootIdxs, childChain]
  | cons t ts =>
      simp only [List.isEmpty_cons, if_false, Bool.false_eq_true]
      have hemb := parse_embeds v
      rw [hF] at hemb
      have hlen : (t :: ts).length ≤ (parse v).length := by
        rw [parse_length, hF]
        have := length_le_fsize (t :: ts)
        omega
      exact childChain_encode (t :: ts) hemb hlen (by simp)

/-! ## Coverage and pairing of the preorder index list -/

theorem forest_cover (F : List Tree) :
    ∀ base j, base ≤ j → j < base + fsize F →
    j ∈ rootIdxs F base ∨
      ∃ pr ∈ forestIdx F base, j ∈ rootIdxs pr.2.childForest (pr.1 + 1) := by
  induction F using forestInd with
  | hnil =>
      intro base j h1 h2
      simp only [fsize] at h2
      omega
  | hcons ty dat cs ts ihcs ihts =>
      intro base j h1 h2
      have hidx : forestIdx (Tree.mk ty dat cs :: ts) base
          = (base, Tree.mk ty dat cs) ::
            (forestIdx cs (base + 1) ++ forestIdx ts (base + 1 + fsize cs)) := by
        simp only [forestIdx]
      have hroot : rootIdxs (Tree.mk ty dat cs :: ts) base
          = base :: rootIdxs ts (base + tsize (Tree.mk ty dat cs)) := rfl
      have htsz : tsize (Tree.mk ty dat cs) = 1 + fsize cs := by
        simp only [tsize]
      by_cases hj : j = base
      · left; rw [hroot, hj]; exact List.mem_cons_self _ _
      · by_cases hj2 : j < base + 1 + fsize cs
        · rcases ihcs (base + 1) j (by omega) (by omega) with hin | ⟨pr, hpr, hin⟩
          · right
            refine ⟨(base, Tree.mk ty dat cs), ?_, ?_⟩
            · rw [hidx]; exact List.mem_cons_self _ _
            · exact hin
          · right
            refine ⟨pr, ?_, hin⟩
            rw [hidx]
            exact List.mem_cons_of_mem _ (List.mem_append_left _ hpr)
        · have h2' : j < base + 1 + fsize cs + fsize ts := by
            simp only [fsize] at h2
            omega
          rcases ihts (base + 1 + fsize cs) j (by omega) (by omega)
            with hin | ⟨pr, hpr, hin⟩
          · left
            rw [hroot, htsz]
            refine List.mem_cons_of_mem _ ?_
            rw [show base + (1 + fsize cs) = base + 1 + fsize cs by omega]
            exact hin
          · right
            refine ⟨pr, ?_, hin⟩
            rw [hidx]
            exact List.mem_cons_of_mem _ (List.mem_append_right _ hpr)

theorem pair_mem_forestIdx (F : List Tree) :
    ∀ base k (hk : k < F.length),
      ((rootIdxs F base).get ⟨k, by rw [length_rootIdxs]; exact hk⟩,
        F.get ⟨k, hk⟩) ∈ forestIdx F base := by
  induction F with
  | nil => intro base k hk; simp at hk
  | cons t ts ih =>
      intro base k hk
      obtain ⟨ty, dat, cs⟩ := t
      have hidx : forestIdx (Tree.mk ty dat cs :: ts) base
          = (base, Tree.mk ty dat cs) ::
            (forestIdx cs (base + 1) ++ forestIdx ts (base + 1 + fsize cs)) := by
        simp only [forestIdx]
      cases k with
      | zero =>
          rw [hidx]
          exact List.mem_cons_self _ _
      | succ k =>
          rw [hidx]
          refine List.mem_cons_of_mem _ (List.mem_append_right _ ?_)
          have hk' : k < ts.length := by simpa using hk
          have hb : base + tsize (Tree.mk ty dat cs) = base + 1 + fsize cs := by
            simp only [tsize]; omega
          have := ih (base + tsize (Tree.mk ty dat cs)) k hk'
          rw [← hb]
          exact this

theorem tsize_le_of_mem_forestIdx {F : List Tree} :
    ∀ {base : Nat} {pr : Nat × Tree}, pr ∈ forestIdx F base →
      tsize pr.2 ≤ fsize F := by
  induction F using forestInd with
  | hnil => intro base pr hpr; simp [forestIdx] at hpr
  | hcons ty dat cs ts ihcs ihts =>
      intro base pr hpr
      rw [show forestIdx (Tree.mk ty dat cs :: ts) base
          = (base, Tree.mk ty dat cs) ::
            (forestIdx cs (base + 1) ++ forestIdx ts (base + 1 + fsize cs))
          by simp only [forestIdx]] at hpr
      have h1 : tsize (Tree.mk ty dat cs) = 1 + fsize cs := by simp only [tsize]
      rcases List.mem_cons.mp hpr with rfl | hpr
      · simp only [fsize]; omega
      · rcases List.mem_append.mp hpr with hpr | hpr
        · have := ihcs hpr; simp only [fsize]; omega
        · have := ihts hpr; simp only [fsize]; omega

theorem wf_of_mem_forestIdx {F : List Tree} :
    ∀ {base : Nat} {pr : Nat × Tree}, ForestWF F → pr ∈ forestIdx F base →
      TreeWF pr.2 := by
  induction F using forestInd with
  | hnil => intro base pr _ hpr; simp [forestIdx] at hpr
  | hcons ty dat cs ts ihcs ihts =>
      intro base pr hwf hpr
      obtain ⟨htw, hwfts⟩ : TreeWF (Tree.mk ty dat cs) ∧ ForestWF ts := hwf
      rw [show forestIdx (Tree.mk ty dat cs :: ts) base
          = (base, Tree.mk ty dat cs) ::
            (forestIdx cs (base + 1) ++ forestIdx ts (base + 1 + fsize cs))
          by simp only [forestIdx]] at hpr
      rcases List.mem_cons.mp hpr with rfl | hpr
      · exact htw
      · rcases List.mem_append.mp hpr with hpr | hpr
        · exact ihcs htw.2.2 hpr
        · exact ihts hwfts hpr

theorem map_rootIdxs_eq {α : Type} {F : List Tree} {base : Nat}
    (g : Nat → α) (gt : Tree → α)
    (hagree : ∀ pr ∈ forestIdx F base, g pr.1 = gt pr.2) :
    (rootIdxs F base).map g = F.map gt := by
  apply List.ext_get
  · simp [length_rootIdxs]
  · intro k h1 h2
    simp only [List.get_map]
    exact hagree _ (pair_mem_forestIdx F base k (by simpa using h2))

theorem arrForest_eq_map (vs : List JValue) :
    arrForest vs = vs.map (fun v => Tree.mk .elementNode "" (toForest v)) := by
  induction vs with
  | nil => simp [arrForest]
  | cons v rest ih =>
      rw [show arrForest (v :: rest)
          = Tree.mk .elementNode "" (toForest v) :: arrForest rest
          by simp only [arrForest]]
      simp [ih]

theorem objForest_eq_map (ps : List (String × JValue)) :
    objForest ps = ps.map (fun kv => Tree.mk .elementNode kv.1 (toForest kv.2)) := by
  induction ps with
  | nil => simp [objForest]
  | cons kv rest ih =>
      obtain ⟨k, v⟩ := kv
      rw [show objForest ((k, v) :: rest)
          = Tree.mk .elementNode k (toForest v) :: objForest rest
          by simp only [objForest]]
      simp [ih]

theorem encode_types {F : List Tree} :
    ∀ {base parent level : Nat} {prev : Option Nat} {nd : Node},
      ForestWF F → nd ∈ encodeForest F base parent level prev →
      nd.type = NodeType.elementNode ∨ nd.type = NodeType.textNode := by
  induction F using forestInd with
  | hnil => intro base parent level prev nd _ h; simp [encodeForest] at h
  | hcons ty dat cs ts ihcs ihts =>
      intro base parent level prev nd hwf h
      obtain ⟨⟨hty, htext, hwfcs⟩, hwfts⟩ :
          ((ty = NodeType.elementNode ∨ ty = NodeType.textNode) ∧
            (ty = NodeType.textNode → cs = []) ∧ ForestWF cs) ∧ ForestWF ts := hwf
      rw [show encodeForest (Tree.mk ty dat cs :: ts) base parent level prev
          = { type := ty, data := dat, level := level, parent := some parent,
              prevSibling := prev,
              nextSibling := if ts.isEmpty then none
                else some (base + 1 + fsize cs),
              firstChild := if cs.isEmpty then none else some (base + 1),
              lastChild := lastIdx cs (base + 1) } ::
            (encodeForest cs (base + 1) base (level + 1) none ++
             encodeForest ts (base + 1 + fsize cs) parent level (some base))
          by simp only [encodeForest]] at h
      rcases List.mem_cons.mp h with rfl | h
      · exact hty
      · rcases List.mem_append.mp h with h | h
        · exact ihcs hwfcs h
        · exact ihts hwfts h

/-! ## The key comparison agrees with the lexicographic string order -/

theorem lexLt_iff : ∀ xs ys : List Char,
    lexLt xs ys = true ↔ List.Lex (· < ·) xs ys := by
  intro xs
  induction xs with
  | nil =>
      intro ys
      cases ys with
      | nil =>
          simp only [lexLt, Bool.false_eq_true, false_iff]
          intro h
          cases h
      | cons b bs =>
          simp only [lexLt, true_iff]
          exact List.Lex.nil
  | cons a as ih =>
      intro ys
      cases ys with
      | nil =>
          simp only [lexLt, Bool.false_eq_true, false_iff]
          intro h
          cases h
      | cons b bs =>
          simp only [lexLt]
          by_cases hab : a < b
          · rw [if_pos hab]
            simp only [true_iff]
            exact List.Lex.rel hab
          · by_cases hba : b < a
            · rw [if_neg hab, if_pos hba]
              simp only [Bool.false_eq_true, false_iff]
              intro h
              cases h with
              | cons h => exact absurd hba (lt_irrefl _)
              | rel h => exact absurd h hab
            · have heq : a = b := le_antisymm (not_lt.mp hba) (not_lt.mp hab)
              subst heq
              rw [if_neg hab, if_neg hba, ih bs]
              constructor
              · exact List.Lex.cons
              · intro h
                cases h with
                | cons h => exact h
                | rel h => exact absurd h hab

theorem strLe_iff (a b : String) : strLe a b = true ↔ a ≤ b := by
  have h1 : strLe a b = true ↔ lexLt b.toList a.toList = false := by
    unfold strLe
    cases lexLt b.toList a.toList <;> simp
  rw [h1]
  have h2 : lexLt b.toList a.toList = false
      ↔ ¬ List.Lex (· < ·) b.toList a.toList := by
    rw [← lexLt_iff]
    cases lexLt b.toList a.toList <;> simp
  rw [h2]
  have h3 : (b.toList < a.toList) ↔ List.Lex (· < ·) b.toList a.toList := Iff.rfl
  rw [← h3, ← String.lt_iff_toList_lt]
  exact not_lt

instance : IsTrans (String × JValue) pairLe :=
  ⟨fun p q r hpq hqr => by
    unfold pairLe at *
    rw [strLe_iff] at *
    exact le_trans hpq hqr⟩

instance : IsTotal (String × JValue) pairLe :=
  ⟨fun p q => by
    unfold pairLe
    rw [strLe_iff, strLe_iff]
    exact le_total p.1 q.1⟩

theorem sortPairs_sorted (ps : List (String × JValue)) :
    (sortPairs ps).Sorted pairLe :=
  List.sorted_insertionSort pairLe ps

theorem sortPairs_keys_sorted (kvs : List (String × JValue))
    (hnd : (kvs.map Prod.fst).Nodup) :
    ((sortPairs kvs).map Prod.fst).Sorted (· < ·) := by
  have hle : ((sortPairs kvs).map Prod.fst).Sorted (· ≤ ·) := by
    rw [List.Sorted, List.pairwise_map]
    exact (sortPairs_sorted kvs).imp (fun h => (strLe_iff _ _).mp h)
  have hnd' : ((sortPairs kvs).map Prod.fst).Nodup :=
    (((sortPairs_perm kvs).map Prod.fst).nodup_iff).mpr hnd
  exact List.Sorted.lt_of_le hle hnd'

theorem sortPairs_pairs_sorted_lt (kvs : List (String × JValue))
    (hnd : (kvs.map Prod.fst).Nodup) :
    (sortPairs kvs).Sorted (fun p q : String × JValue => p.1 < q.1) := by
  have := sortPairs_keys_sorted kvs hnd
  rw [List.Sorted, List.pairwise_map] at this
  exact this

/-- With pairwise distinct keys, the sorted member list — and hence the
whole parse — does not depend on the encounter order of the source map. -/
theorem sortPairs_eq_of_perm {kvs kvs' : List (String × JValue)}
    (hnd : (kvs.map Prod.fst).Nodup) (hperm : kvs'.Perm kvs) :
    sortPairs kvs' = sortPairs kvs := by
  have hnd' : (kvs'.map Prod.fst).Nodup := ((hperm.map Prod.fst).nodup_iff).mpr hnd
  haveI : IsAntisymm (String × JValue) (fun p q : String × JValue => p.1 < q.1) :=
    ⟨fun p q h1 h2 => absurd h2 (lt_asymm h1)⟩
  exact List.eq_of_perm_of_sorted
    ((sortPairs_perm kvs').trans (hperm.trans (sortPairs_perm kvs).symm))
    (sortPairs_pairs_sorted_lt kvs' hnd')
    (sortPairs_pairs_sorted_lt kvs hnd)

/-! ## Parse-level corollaries -/

theorem parse_treeFacts (v : JValue) :
    ∀ pr ∈ forestIdx (toForest v) 1, TreeFacts (parse v) pr.1 pr.2 :=
  fun pr hpr => (forest_facts (toForest v) (parse_embeds v)).2.2.2 pr hpr

theorem InnerText_parse_node (v : JValue) :
    ∀ pr ∈ forestIdx (toForest v) 1, InnerText (parse v) pr.1 = treeText pr.2 := by
  intro pr hpr
  have h1 := tsize_le_of_mem_forestIdx hpr
  have h2 := parse_length v
  exact (innerText_encode (toForest v) (toForest_wf v) (parse_embeds v)).2 pr hpr
    (2 * (parse v).length + 1) (by omega)

theorem InnerText_parse_root (v : JValue) :
    InnerText (parse v) 0 = forestText (toForest v) := by
  have h2 := parse_length v
  rw [show InnerText (parse v) 0
      = (if (getN (parse v) 0).type = .textNode then (getN (parse v) 0).data
         else innerTextChain (parse v) (2 * (parse v).length)
           (getN (parse v) 0).firstChild) from rfl]
  rw [getN_parse_root]
  rw [if_neg (by simp [docNode])]
  cases hF : toForest v with
  | nil =>
      simp only [List.isEmpty_nil, if_true]
      rw [show innerTextChain (parse v) (2 * (parse v).length) none = ""
        by cases 2 * (parse v).length <;> rfl]
      simp [forestText]
  | cons t ts =>
      simp only [List.isEmpty_cons, if_false, Bool.false_eq_true]
      have hemb := parse_embeds v
      rw [hF] at hemb
      have := (innerText_encode (t :: ts) (by rw [← hF]; exact toForest_wf v)
        hemb).1 (2 * (parse v).length) (by rw [h2, hF]; omega) (by simp)
      rw [this]

theorem OutputXML_parse_root (v : JValue) :
    OutputXML (parse v) 0
      = "<?xml version=\"1.0\"?>" ++ renderForest (toForest v) := by
  have h2 := parse_length v
  rw [show OutputXML (parse v) 0
      = "<?xml version=\"1.0\"?>"
        ++ outputXMLChain (parse v) (2 * (parse v).length + 1)
            (getN (parse v) 0).firstChild from rfl]
  rw [getN_parse_root]
  cases hF : toForest v with
  | nil =>
      simp only [List.isEmpty_nil, if_true]
      rw [show outputXMLChain (parse v) (2 * (parse v).length + 1) none = ""
        from rfl]
      simp [renderForest]
  | cons t ts =>
      simp only [List.isEmpty_cons, if_false, Bool.false_eq_true]
      have hemb := parse_embeds v
      rw [hF] at hemb
      have := (outputXML_encode (t :: ts) (by rw [← hF]; exact toForest_wf v)
        hemb).1 (2 * (parse v).length + 1) (by rw [h2, hF]; omega) (by simp)
      rw [this]

theorem OutputXML_parse_node (v : JValue) :
    ∀ pr ∈ forestIdx (toForest v) 1,
      OutputXML (parse v) pr.1
        = "<?xml version=\"1.0\"?>" ++ renderForest pr.2.childForest := by
  intro pr hpr
  have h2 := parse_length v
  have htf := parse_treeFacts v pr hpr
  have hsz := tsize_le_of_mem_forestIdx hpr
  obtain ⟨i, t⟩ := pr
  obtain ⟨ty, dat, cs⟩ := t
  obtain ⟨_, _, hfc, _, _, hemb⟩ := htf
  rw [show OutputXML (parse v) i
      = "<?xml version=\"1.0\"?>"
        ++ outputXMLChain (parse v) (2 * (parse v).length + 1)
            (getN (parse v) i).firstChild from rfl]
  rw [hfc]
  cases cs with
  | nil =>
      simp only [Tree.childForest, List.isEmpty_nil, if_true]
      rw [show outputXMLChain (parse v) (2 * (parse v).length + 1) none = ""
        from rfl]
      simp [renderForest]
  | cons c cts =>
      simp only [Tree.childForest, List.isEmpty_cons, if_false,
        Bool.false_eq_true]
      have hwf : ForestWF (c :: cts) := by
        have := wf_of_mem_forestIdx (toForest_wf v) hpr
        exact this.2.2
      have := (outputXML_encode (c :: cts) hwf hemb).1
        (2 * (parse v).length + 1)
        (by
          simp only [tsize] at hsz
          omega)
        (by simp)
      rw [this]

/-! ## `ChildNodes` after one `parseValue` call at a childless node -/

theorem embedsAt_append (pre E : List Node) : EmbedsAt (pre ++ E) pre.length E := by
  refine ⟨by simp, ?_⟩
  intro j hj
  exact getN_append_right pre E j

theorem getN_attach_top {a : List Node} {top level : Nat}
    (h : Inv a top level) (ts : List Tree) (hne : ts ≠ []) :
    getN (attach a top ts level) top
      = { getN a top with
          firstChild := some ((getN a top).firstChild.getD a.length),
          lastChild := lastIdx ts a.length } := by
  obtain ⟨htop, hlev, hiff, hlast⟩ := h
  cases ts with
  | nil => exact absurd rfl hne
  | cons t ts =>
      cases hlc : (getN a top).lastChild with
      | none =>
          simp only [attach, hlc, getN_append_left, length_setN,
            getN_setN_self, htop]
      | some u0 =>
          obtain ⟨hult, hune⟩ := hlast u0 hlc
          simp only [attach, hlc, getN_append_left, length_setN,
            getN_setN_self, getN_setN_ne hune, htop]

theorem attach_embeds {a : List Node} {top level : Nat}
    (h : Inv a top level) (ts : List Tree) (hne : ts ≠ []) :
    EmbedsAt (attach a top ts level) a.length
      (encodeForest ts a.length top level (getN a top).lastChild) := by
  obtain ⟨htop, hlev, hiff, hlast⟩ := h
  cases ts with
  | nil => exact absurd rfl hne
  | cons t ts =>
      cases hlc : (getN a top).lastChild with
      | none =>
          rw [show attach a top (t :: ts) level
              = setN a top { getN a top with
                  firstChild := some ((getN a top).firstChild.getD a.length),
                  lastChild := lastIdx (t :: ts) a.length }
                ++ encodeForest (t :: ts) a.length top level none
              by simp only [attach, hlc]]
          have := embedsAt_append
            (setN a top { getN a top with
              firstChild := some ((getN a top).firstChild.getD a.length),
              lastChild := lastIdx (t :: ts) a.length })
            (encodeForest (t :: ts) a.length top level none)
          rw [length_setN] at this
          exact this
      | some u0 =>
          obtain ⟨hult, hune⟩ := hlast u0 hlc
          rw [show attach a top (t :: ts) level
              = setN (setN a u0 { getN a u0 with nextSibling := some a.length })
                  top { getN (setN a u0 { getN a u0 with
                          nextSibling := some a.length }) top with
                  firstChild := some ((getN a top).firstChild.getD a.length),
                  lastChild := lastIdx (t :: ts) a.length }
                ++ encodeForest (t :: ts) a.length top level (some u0)
              by simp only [attach, hlc]]
          have := embedsAt_append
            (setN (setN a u0 { getN a u0 with nextSibling := some a.length })
              top { getN (setN a u0 { getN a u0 with
                      nextSibling := some a.length }) top with
                firstChild := some ((getN a top).firstChild.getD a.length),
                lastChild := lastIdx (t :: ts) a.length })
            (encodeForest (t :: ts) a.length top level (some u0))
          rw [length_setN, length_setN] at this
          exact this

/-- One `parseValue` call at a childless insertion point makes the roots of
`toForest x` the children of `top`, laid out from the old end of the
heap. -/
theorem ChildNodes_parseValue (x : JValue) {a : List Node} {top level : Nat}
    (h : Inv a top level) (hfc : (getN a top).firstChild = none) :
    ChildNodes (parseValue x a top level) top
      = rootIdxs (toForest x) a.length := by
  rw [parseValue_eq x a top level h]
  cases hF : toForest x with
  | nil =>
      rw [show attach a top [] level = a from rfl]
      rw [show ChildNodes a top
          = childChain a a.length (getN a top).firstChild from rfl, hfc]
      simp [childChain, rootIdxs]
  | cons t ts =>
      have hne : (t :: ts) ≠ [] := by simp
      have hemb := attach_embeds h (t :: ts) hne
      have hget := getN_attach_top h (t :: ts) hne
      rw [show ChildNodes (attach a top (t :: ts) level) top
          = childChain (attach a top (t :: ts) level)
              (attach a top (t :: ts) level).length
              (getN (attach a top (t :: ts) level) top).firstChild from rfl]
      rw [hget]
      rw [show ({ getN a top with
          firstChild := some ((getN a top).firstChild.getD a.length),
          lastChild := lastIdx (t :: ts) a.length } : Node).firstChild
          = some ((getN a top).firstChild.getD a.length) from rfl]
      rw [hfc]
      rw [show (none : Option Nat).getD a.length = a.length from rfl]
      have hlen : (t :: ts).length ≤ (attach a top (t :: ts) level).length := by
        rw [length_attach]
        have := length_le_fsize (t :: ts)
        omega
      exact childChain_encode (t :: ts) hemb hlen hne

theorem data_children_parseValue (x : JValue) {a : List Node} {top level : Nat}
    (h : Inv a top level) (hfc : (getN a top).firstChild = none) :
    (ChildNodes (parseValue x a top level) top).map
        (fun i => (getN (parseValue x a top level) i).data)
      = (toForest x).map Tree.rootData := by
  rw [ChildNodes_parseValue x h hfc]
  cases hF : toForest x with
  | nil => rfl
  | cons t ts =>
      have hne : (t :: ts) ≠ [] := by simp
      have hemb := attach_embeds h (t :: ts) hne
      rw [parseValue_eq x a top level h, hF]
      exact map_rootIdxs_eq _ _
        (fun pr hpr =>
          ((forest_facts (t :: ts) hemb).2.2.2 pr hpr).2.1)

theorem objForest_map_rootData (ps : List (String × JValue)) :
    (objForest ps).map Tree.rootData = ps.map Prod.fst := by
  rw [objForest_eq_map, List.map_map]
  apply List.map_congr_left
  intro kv _
  rfl

/-! ## The claims -/

/-- **C3**: a JSON `null` — as the whole document, as a member value or as
an array element — produces no node: `parseValue` leaves the heap untouched
on `null`, and the heap of a full parse holds exactly one record per
non-null position (`vsize` counts 0 for every null position) plus the
document root.  No error path exists. -/
theorem C3_null_produces_no_node :
    (∀ (a : List Node) (top level : Nat), parseValue JValue.null a top level = a) ∧
    (∀ v : JValue, (parse v).length = 1 + vsize v) := by
  constructor
  · intro a top level
    simp only [parseValue]
  · intro v
    rw [parse_length, fsize_toForest]

/-- **C2**: for a JSON array of length `n` parsed as the document, the root
has exactly `n` children, in array order, and the `InnerText` of the `i`-th
child is the canonical text rendering of the `i`-th element. -/
theorem C2_array_children_inner_text (vs : List JValue) :
    (ChildNodes (parse (JValue.arr vs)) 0).length = vs.length ∧
    (ChildNodes (parse (JValue.arr vs)) 0).map
        (fun i => InnerText (parse (JValue.arr vs)) i)
      = vs.map canonicalText := by
  have hF : toForest (JValue.arr vs) = arrForest vs := by simp only [toForest]
  have hroot := ChildNodes_parse_root (JValue.arr vs)
  rw [hF] at hroot
  constructor
  · rw [hroot, length_rootIdxs, arrForest_eq_map, List.length_map]
  · rw [hroot]
    have h1 : (rootIdxs (arrForest vs) 1).map
        (fun i => InnerText (parse (JValue.arr vs)) i)
        = (arrForest vs).map treeText :=
      map_rootIdxs_eq _ _
        (fun pr hpr => InnerText_parse_node (JValue.arr vs) pr
          (by rw [hF]; exact hpr))
    rw [h1, arrForest_eq_map, List.map_map]
    apply List.map_congr_left
    intro v hv
    show treeText (Tree.mk .elementNode "" (toForest v)) = canonicalText v
    rw [show treeText (Tree.mk .elementNode "" (toForest v))
        = (if NodeType.elementNode = NodeType.textNode then "" else "")
          ++ forestText (toForest v) by simp only [treeText]]
    simp [forestText_toForest]

/-- **C1**: the children emitted for a JSON object form the root's sibling
chain in strictly ascending lexicographic key order (String `<` is
code-point — equivalently UTF-8 byte — lexicographic order): the child
names are exactly the object's keys, sorted ascending, each child is an
`ElementNode`, and the parse is independent of the encounter order of the
source mapping (any permutation of the member list parses identically).
The last conjunct states the property for an object anywhere in a
document: at every insertion point the builder can reach (any heap
satisfying the insertion invariant, the object's own node being freshly
created and childless), the object's members become that node's children
in ascending key order.  The Nodup hypothesis is the defining property of
the keys of a Go map. -/
theorem C1_object_children_sorted (kvs : List (String × JValue))
    (hnd : (kvs.map Prod.fst).Nodup) :
    ((ChildNodes (parse (JValue.obj kvs)) 0).map
        (fun i => (getN (parse (JValue.obj kvs)) i).data)).Perm
      (kvs.map Prod.fst) ∧
    ((ChildNodes (parse (JValue.obj kvs)) 0).map
        (fun i => (getN (parse (JValue.obj kvs)) i).data)).Sorted (· < ·) ∧
    (∀ i ∈ ChildNodes (parse (JValue.obj kvs)) 0,
        (getN (parse (JValue.obj kvs)) i).type = NodeType.elementNode) ∧
    (∀ kvs' : List (String × JValue), kvs'.Perm kvs →
        parse (JValue.obj kvs') = parse (JValue.obj kvs)) ∧
    (∀ (a : List Node) (top level : Nat), Inv a top level →
        (getN a top).firstChild = none →
        (ChildNodes (parseValue (JValue.obj kvs) a top level) top).map
            (fun i => (getN (parseValue (JValue.obj kvs) a top level) i).data)
          = (sortPairs kvs).map Prod.fst) := by
  have hF : toForest (JValue.obj kvs) = objForest (sortPairs kvs) := by
    simp only [toForest]
  have hroot := ChildNodes_parse_root (JValue.obj kvs)
  rw [hF] at hroot
  have hnames : (ChildNodes (parse (JValue.obj kvs)) 0).map
      (fun i => (getN (parse (JValue.obj kvs)) i).data)
      = (sortPairs kvs).map Prod.fst := by
    rw [hroot]
    have h1 : (rootIdxs (objForest (sortPairs kvs)) 1).map
        (fun i => (getN (parse (JValue.obj kvs)) i).data)
        = (objForest (sortPairs kvs)).map Tree.rootData :=
      map_rootIdxs_eq _ _
        (fun pr hpr =>
          (parse_treeFacts (JValue.obj kvs) pr (by rw [hF]; exact hpr)).2.1)
    rw [h1, objForest_eq_map, List.map_map]
    apply List.map_congr_left
    intro kv _
    rfl
  refine ⟨?_, ?_, ?_, ?_, ?_⟩
  · rw [hnames]
    exact (sortPairs_perm kvs).map Prod.fst
  · rw [hnames]
    exact sortPairs_keys_sorted kvs hnd
  · intro i hi
    rw [hroot] at hi
    obtain ⟨⟨k, hk⟩, hget⟩ := List.mem_iff_get.mp hi
    have hk' : k < (objForest (sortPairs kvs)).length := by
      rw [← length_rootIdxs (objForest (sortPairs kvs)) 1]
      exact hk
    have hpm := pair_mem_forestIdx (objForest (sortPairs kvs)) 1 k hk'
    have htf := parse_treeFacts (JValue.obj kvs) _ (by rw [hF]; exact hpm)
    have h2 := htf.1
    rw [← hget]
    rw [show ((rootIdxs (objForest (sortPairs kvs)) 1).get ⟨k, hk⟩)
        = ((rootIdxs (objForest (sortPairs kvs)) 1).get
            ⟨k, by rw [length_rootIdxs]; exact hk'⟩) from rfl]
    rw [h2]
    show ((objForest (sortPairs kvs)).get ⟨k, hk'⟩).rootType = NodeType.elementNode
    rw [List.get_of_eq (objForest_eq_map (sortPairs kvs)) ⟨k, hk'⟩, List.get_map]
    rfl
  · intro kvs' hperm
    have heq : toForest (JValue.obj kvs') = toForest (JValue.obj kvs) := by
      rw [show toForest (JValue.obj kvs') = objForest (sortPairs kvs')
          by simp only [toForest], hF, sortPairs_eq_of_perm hnd hperm]
    show parseValue _ _ _ _ = parseValue _ _ _ _
    rw [parseValue_eq _ _ _ _ Inv_doc, parseValue_eq _ _ _ _ Inv_doc, heq]
  · intro a top level hInv hfc
    rw [data_children_parseValue _ hInv hfc]
    rw [show toForest (JValue.obj kvs) = objForest (sortPairs kvs)
      by simp only [toForest]]
    exact objForest_map_rootData (sortPairs kvs)

/-- **C4**: after a full parse the pointer web is consistent: every
non-root record has a parent; walking that parent's
`FirstChild`/`NextSibling` chain (`ChildNodes`) visits it exactly once; the
chain's last entry is the parent's `LastChild`; consecutive chain entries
point at each other with `NextSibling`/`PrevSibling`; and every entry of
the chain names that parent as its `Parent`. -/
theorem C4_pointer_consistency (v : JValue) (i : Nat)
    (h1 : 1 ≤ i) (h2 : i < (parse v).length) :
    ∃ p, (getN (parse v) i).parent = some p ∧
      (ChildNodes (parse v) p).count i = 1 ∧
      (getN (parse v) p).lastChild = (ChildNodes (parse v) p).getLast? ∧
      List.Chain' (fun x y => (getN (parse v) x).nextSibling = some y ∧
          (getN (parse v) y).prevSibling = some x)
        (ChildNodes (parse v) p) ∧
      (∀ j ∈ ChildNodes (parse v) p, (getN (parse v) j).parent = some p) := by
  have hlen := parse_length v
  have hcov := forest_cover (toForest v) 1 i h1 (by omega)
  have hfacts := forest_facts (toForest v) (parse_embeds v)
  rcases hcov with hin | ⟨pr, hpr, hin⟩
  · refine ⟨0, ?_, ?_, ?_, ?_, ?_⟩
    · exact (hfacts.1 i hin).1
    · rw [ChildNodes_parse_root]
      exact List.count_eq_one_of_mem ((rootIdxs_pairwise_lt (toForest v) 1).nodup) hin
    · rw [ChildNodes_parse_root, getN_parse_root]
      exact lastIdx_eq_getLast? (toForest v) 1
    · rw [ChildNodes_parse_root]
      exact hfacts.2.1
    · intro j hj
      rw [ChildNodes_parse_root] at hj
      exact (hfacts.1 j hj).1
  · obtain ⟨tfty, tfdata, tffc, tflc, tfcn, tfemb⟩ := hfacts.2.2.2 pr hpr
    have hchild := forest_facts pr.2.childForest tfemb
    refine ⟨pr.1, ?_, ?_, ?_, ?_, ?_⟩
    · exact (hchild.1 i hin).1
    · rw [tfcn]
      exact List.count_eq_one_of_mem ((rootIdxs_pairwise_lt _ _).nodup) hin
    · rw [tfcn, tflc]
      exact lastIdx_eq_getLast? _ _
    · rw [tfcn]
      exact hchild.2.1
    · intro j hj
      rw [tfcn] at hj
      exact (hchild.1 j hj).1

/-- **C6**: `InnerText` is the concatenation, in depth-first preorder and
with no separators, of the `Data` of every text node in the subtree:
`treeText`/`forestText` are exactly that preorder concatenation.  It holds
at the document root and at every node of the parsed heap; for a text node
it returns the node's own `Data`.  `InnerText` is a total function of the
heap — read-only, never failing. -/
theorem C6_innertext_preorder_concat (v : JValue) :
    InnerText (parse v) 0 = forestText (toForest v) ∧
    (∀ pr ∈ forestIdx (toForest v) 1, InnerText (parse v) pr.1 = treeText pr.2) ∧
    (∀ pr ∈ forestIdx (toForest v) 1, pr.2.rootType = NodeType.textNode →
        InnerText (parse v) pr.1 = pr.2.rootData) := by
  refine ⟨InnerText_parse_root v, InnerText_parse_node v, ?_⟩
  intro pr hpr hty
  rw [InnerText_parse_node v pr hpr]
  have hwf := wf_of_mem_forestIdx (toForest_wf v) hpr
  obtain ⟨i, t⟩ := pr
  obtain ⟨ty, dat, cs⟩ := t
  simp only [Tree.rootType] at hty
  subst hty
  obtain ⟨-, htext, -⟩ :
      (NodeType.textNode = NodeType.elementNode ∨
        NodeType.textNode = NodeType.textNode) ∧
      (NodeType.textNode = NodeType.textNode → cs = []) ∧ ForestWF cs := hwf
  rw [htext rfl]
  rw [show treeText (Tree.mk NodeType.textNode dat [])
      = (if NodeType.textNode = NodeType.textNode then dat else "")
        ++ forestText [] by simp only [treeText]]
  simp [forestText, Tree.rootData]

/-- **C7**: `OutputXML` always begins with the fixed declaration
`<?xml version="1.0"?>` (for any heap and index), and renders exactly the
subtree under the node's children: at the root the whole document forest,
at every node its child forest, where `renderTree`/`renderForest` produce
one `<name>…</name>` pair per named element, one `<element>…</element>`
pair per anonymous element, and raw unescaped `Data` per text node. -/
theorem C7_outputxml_rendering (v : JValue) :
    (∀ (a : List Node) (i : Nat), ∃ s,
        OutputXML a i = "<?xml version=\"1.0\"?>" ++ s) ∧
    OutputXML (parse v) 0
      = "<?xml version=\"1.0\"?>" ++ renderForest (toForest v) ∧
    (∀ pr ∈ forestIdx (toForest v) 1,
        OutputXML (parse v) pr.1
          = "<?xml version=\"1.0\"?>" ++ renderForest pr.2.childForest) := by
  exact ⟨fun a i => ⟨_, rfl⟩, OutputXML_parse_root v, OutputXML_parse_node v⟩

/-- **C8**: every parsed heap holds exactly one `DocumentNode` record; it
sits at index 0 (the root handed back by `parse`), carries no name and
keeps `Parent`, `PrevSibling` and `NextSibling` nil after the build. -/
theorem C8_unique_document_root (v : JValue) :
    (parse v).countP (fun nd => decide (nd.type = NodeType.documentNode)) = 1 ∧
    (getN (parse v) 0).type = NodeType.documentNode ∧
    (getN (parse v) 0).data = "" ∧
    (getN (parse v) 0).parent = none ∧
    (getN (parse v) 0).prevSibling = none ∧
    (getN (parse v) 0).nextSibling = none := by
  refine ⟨?_, ?_, ?_, ?_, ?_, ?_⟩
  · rw [parse_eq_parseSpec]
    cases hF : toForest v with
    | nil => simp [parseSpec, hF, docNode]
    | cons t ts =>
        simp only [parseSpec, hF]
        rw [List.countP_cons_of_pos _ _ (by simp [docNode])]
        have hz : (encodeForest (t :: ts) 1 0 1 none).countP
            (fun nd => decide (nd.type = NodeType.documentNode)) = 0 := by
          rw [List.countP_eq_zero]
          intro nd hnd
          have hwf : ForestWF (t :: ts) := by rw [← hF]; exact toForest_wf v
          rcases encode_types hwf hnd with h | h <;> simp [h]
        rw [hz]
  · rw [getN_parse_root]; rfl
  · rw [getN_parse_root]; rfl
  · rw [getN_parse_root]; rfl
  · rw [getN_parse_root]; rfl
  · rw [getN_parse_root]; rfl

/-- **C9**: `Parse` fails exactly when obtaining the bytes or decoding them
fails: a read error or a decode error is returned as is with no tree, and
on decode success it returns the parsed heap — which is never empty and has
the `DocumentNode` root at index 0 — with no error. -/
theorem C9_parse_error_handling
    (decode : List UInt8 → Except String JValue) :
    (∀ e, Parse decode (Except.error e) = Except.error e) ∧
    (∀ b e, decode b = Except.error e →
        Parse decode (Except.ok b) = Except.error e) ∧
    (∀ b w, decode b = Except.ok w →
        Parse decode (Except.ok b) = Except.ok (parse w) ∧
        1 ≤ (parse w).length ∧
        (getN (parse w) 0).type = NodeType.documentNode) := by
  refine ⟨fun e => rfl, ?_, ?_⟩
  · intro b e h
    simp [Parse, parseBytes, h]
  · intro b w h
    refine ⟨by simp [Parse, parseBytes, h], ?_, ?_⟩
    · rw [parse_length]
      omega
    · rw [getN_parse_root]; rfl

/-- **C10**: parsing a JSON array creates exactly one anonymous
(`Data = ""`) `ElementNode` child per position — nulls included — so the
parent's child count equals the array length (stated for the document root
and for an array at any insertion point the builder can reach), and the
wrapper of a `null` element merely has no children of its own. -/
theorem C10_null_array_wrappers (vs : List JValue) :
    (ChildNodes (parse (JValue.arr vs)) 0).length = vs.length ∧
    (∀ (a : List Node) (top level : Nat), Inv a top level →
        (getN a top).firstChild = none →
        (ChildNodes (parseValue (JValue.arr vs) a top level) top).length
          = vs.length) ∧
    (∀ i ∈ ChildNodes (parse (JValue.arr vs)) 0,
        (getN (parse (JValue.arr vs)) i).type = NodeType.elementNode ∧
        (getN (parse (JValue.arr vs)) i).data = "") ∧
    (∀ (k j : Nat), vs[k]? = some JValue.null →
        (ChildNodes (parse (JValue.arr vs)) 0)[k]? = some j →
        ChildNodes (parse (JValue.arr vs)) j = []) := by
  have hF : toForest (JValue.arr vs) = arrForest vs := by simp only [toForest]
  have hroot := ChildNodes_parse_root (JValue.arr vs)
  rw [hF] at hroot
  refine ⟨?_, ?_, ?_, ?_⟩
  · rw [hroot, length_rootIdxs, arrForest_eq_map, List.length_map]
  · intro a top level hInv hfc
    rw [ChildNodes_parseValue _ hInv hfc, length_rootIdxs, hF,
      arrForest_eq_map, List.length_map]
  · intro i hi
    rw [hroot] at hi
    obtain ⟨⟨k, hk⟩, hget⟩ := List.mem_iff_get.mp hi
    have hk' : k < (arrForest vs).length := by
      rw [← length_rootIdxs (arrForest vs) 1]
      exact hk
    have hpm := pair_mem_forestIdx (arrForest vs) 1 k hk'
    have htf := parse_treeFacts (JValue.arr vs) _ (by rw [hF]; exact hpm)
    constructor
    · rw [← hget]
      rw [show ((rootIdxs (arrForest vs) 1).get ⟨k, hk⟩)
          = ((rootIdxs (arrForest vs) 1).get
              ⟨k, by rw [length_rootIdxs]; exact hk'⟩) from rfl]
      rw [htf.1]
      show ((arrForest vs).get ⟨k, hk'⟩).rootType = NodeType.elementNode
      rw [List.get_of_eq (arrForest_eq_map vs) ⟨k, hk'⟩, List.get_map]
      rfl
    · rw [← hget]
      rw [show ((rootIdxs (arrForest vs) 1).get ⟨k, hk⟩)
          = ((rootIdxs (arrForest vs) 1).get
              ⟨k, by rw [length_rootIdxs]; exact hk'⟩) from rfl]
      rw [htf.2.1]
      show ((arrForest vs).get ⟨k, hk'⟩).rootData = ""
      rw [List.get_of_eq (arrForest_eq_map vs) ⟨k, hk'⟩, List.get_map]
      rfl
  · intro k j hnull hj
    rw [hroot] at hj
    have h2 : (arrForest vs)[k]? = some (Tree.mk .elementNode "" []) := by
      rw [arrForest_eq_map, List.getElem?_map, hnull]
      rw [Option.map_some']
      rw [show toForest JValue.null = [] by simp only [toForest]]
    obtain ⟨hk1, hj1⟩ := List.getElem?_eq_some.mp hj
    obtain ⟨hk2, ht2⟩ := List.getElem?_eq_some.mp h2
    have hpm := pair_mem_forestIdx (arrForest vs) 1 k hk2
    have hpm' : (j, Tree.mk .elementNode "" []) ∈ forestIdx (arrForest vs) 1 := by
      have e1 : (rootIdxs (arrForest vs) 1).get
          ⟨k, by rw [length_rootIdxs]; exact hk2⟩ = j := hj1
      have e2 : (arrForest vs).get ⟨k, hk2⟩ = Tree.mk .elementNode "" [] := ht2
      rw [← e1, ← e2]
      exact hpm
    have htf := parse_treeFacts (JValue.arr vs) _ (by rw [hF]; exact hpm')
    have hcn := htf.2.2.2.2.1
    rw [hcn]
    rfl

/-! ## Witnesses -/

/-- Witness for C1 at the two-member object `{"b": 2, "a": 1}`. -/
theorem C1_object_children_sorted_witness :
    (([("b", JValue.num "2"), ("a", JValue.num "1")].map Prod.fst).Nodup) ∧
    ((ChildNodes (parse (JValue.obj [("b", JValue.num "2"), ("a", JValue.num "1")])) 0).map
        (fun i => (getN (parse (JValue.obj [("b", JValue.num "2"), ("a", JValue.num "1")])) i).data)).Sorted
      (· < ·) := by
  have h : (([("b", JValue.num "2"), ("a", JValue.num "1")].map Prod.fst).Nodup) := by
    simp
  exact ⟨h,
    (C1_object_children_sorted [("b", JValue.num "2"), ("a", JValue.num "1")] h).2.1⟩

/-- Witness for C4 at the document `"a"`, node index 1. -/
theorem C4_pointer_consistency_witness :
    1 ≤ 1 ∧ 1 < (parse (JValue.str "a")).length ∧
    (∃ p, (getN (parse (JValue.str "a")) 1).parent = some p ∧
      (ChildNodes (parse (JValue.str "a")) p).count 1 = 1 ∧
      (getN (parse (JValue.str "a")) p).lastChild
        = (ChildNodes (parse (JValue.str "a")) p).getLast? ∧
      List.Chain' (fun x y => (getN (parse (JValue.str "a")) x).nextSibling = some y ∧
          (getN (parse (JValue.str "a")) y).prevSibling = some x)
        (ChildNodes (parse (JValue.str "a")) p) ∧
      (∀ j ∈ ChildNodes (parse (JValue.str "a")) p,
          (getN (parse (JValue.str "a")) j).parent = some p)) := by
  have h2 : 1 < (parse (JValue.str "a")).length := by
    rw [parse_length]
    simp [toForest, fsize, tsize]
  exact ⟨le_refl 1, h2, C4_pointer_consistency (JValue.str "a") 1 (le_refl 1) h2⟩

/-- Witness for C6 at the document `"hi"`, whose single node is the text
leaf at index 1. -/
theorem C6_innertext_preorder_concat_witness :
    (1, Tree.mk NodeType.textNode "hi" []) ∈ forestIdx (toForest (JValue.str "hi")) 1 ∧
    InnerText (parse (JValue.str "hi")) 1 = treeText (Tree.mk NodeType.textNode "hi" []) := by
  have h : (1, Tree.mk NodeType.textNode "hi" [])
      ∈ forestIdx (toForest (JValue.str "hi")) 1 := by
    simp [toForest, forestIdx]
  exact ⟨h, (C6_innertext_preorder_concat (JValue.str "hi")).2.1 _ h⟩

/-- Witness for C7 at the document `["x"]`, whose anonymous element sits at
index 1 with the text leaf as its only child. -/
theorem C7_outputxml_rendering_witness :
    (1, Tree.mk NodeType.elementNode "" [Tree.mk NodeType.textNode "x" []])
      ∈ forestIdx (toForest (JValue.arr [JValue.str "x"])) 1 ∧
    OutputXML (parse (JValue.arr [JValue.str "x"])) 1
      = "<?xml version=\"1.0\"?>"
        ++ renderForest [Tree.mk NodeType.textNode "x" []] := by
  have h : (1, Tree.mk NodeType.elementNode "" [Tree.mk NodeType.textNode "x" []])
      ∈ forestIdx (toForest (JValue.arr [JValue.str "x"])) 1 := by
    simp [toForest, arrForest, forestIdx]
  exact ⟨h, (C7_outputxml_rendering (JValue.arr [JValue.str "x"])).2.2 _ h⟩

/-- Witness for C9 with a decoder that always succeeds with `null`. -/
theorem C9_parse_error_handling_witness :
    (fun (_ : List UInt8) => (Except.ok JValue.null : Except String JValue)) []
      = Except.ok JValue.null ∧
    (Parse (fun _ => (Except.ok JValue.null : Except String JValue))
        (Except.ok []) = Except.ok (parse JValue.null) ∧
      1 ≤ (parse JValue.null).length ∧
      (getN (parse JValue.null) 0).type = NodeType.documentNode) := by
  exact ⟨rfl,
    (C9_parse_error_handling
      (fun _ => (Except.ok JValue.null : Except String JValue))).2.2 [] JValue.null rfl⟩

/-- Witness for C10 at the array `[null]`: position 0 still gets its
wrapper element (index 1), which has no children. -/
theorem C10_null_array_wrappers_witness :
    ([JValue.null])[0]? = some JValue.null ∧
    (ChildNodes (parse (JValue.arr [JValue.null])) 0)[0]? = some 1 ∧
    ChildNodes (parse (JValue.arr [JValue.null])) 1 = [] := by
  have h1 : ([JValue.null])[0]? = some JValue.null := rfl
  have h2 : (ChildNodes (parse (JValue.arr [JValue.null])) 0)[0]? = some 1 := by
    rw [ChildNodes_parse_root]
    simp [toForest, arrForest, rootIdxs]
  exact ⟨h1, h2, (C10_null_array_wrappers [JValue.null]).2.2.2 0 1 h1 h2⟩

end Jsonquery
